import Mathlib

/-!
# esp32-net-speedtest: upload and download meters

Shallow embedding of `src/main/esp32-net-speedtest.c` (`connect_tcp`,
`run_upload_test`, `run_download_test`) and of the variant of `run_upload_test`
in `src/upload/upload.c`.

Modelling conventions

* `size_t` is the 32-bit unsigned type of the ESP32 targets: every `size_t`
  result is reduced modulo `SIZE_MOD = 2 ^ 32`.  `uint64_t` results are reduced
  modulo `U64_MOD = 2 ^ 64`.
* Bytes are natural numbers (`CR = 13`, `LF = 10`, NUL `= 0`).
* The socket is an environment: the values returned by `getaddrinfo`, `socket`,
  `connect`, `malloc`, `write`, `read` and `esp_timer_get_time` are inputs of the
  model, the calls the program makes are recorded as a list of events.
* The writes of an upload are answered by a function of the call index and the
  requested length, and the send loop takes fuel: `none` means that the fuel ran
  out.  The reads of a download are answered by a list; when the list is used up
  the peer has closed and `read` returns 0, so the read loop is total.
* The read buffer is a list of `buf_sz` bytes that keeps its contents from one
  `read` to the next; its initial contents are an input.  `strstr` scans it up to
  the first NUL byte; a scan that reaches the end of the buffer without finding
  the needle or a NUL byte is undefined behaviour and ends the modelled run.
* The macros `IO_BUF_SIZE`, `UL_TOTAL_BYTES` and `DL_LIMIT_BYTES` are parameters
  (`buf_sz`, `ul_total`, `dl_limit`).
* `double` is IEEE-754 binary64 with round to nearest, ties to even: a finite
  value is held as the rational it denotes and every conversion, product and
  quotient is rounded.  All values of the meters are non-negative, so signed
  zeros and `-Inf` do not occur; a division by zero yields `+Inf` or `NaN`.
-/

namespace Speedtest

/-! ## Machine words -/

/-- Number of values of `size_t` (32-bit targets). -/
def SIZE_MOD : Nat := 2 ^ 32

/-- Number of values of `uint64_t`. -/
def U64_MOD : Nat := 2 ^ 64

/-- Unsigned subtraction `a - b` in `size_t`, for `a b < SIZE_MOD`. -/
def size_sub (a b : Nat) : Nat := (a + SIZE_MOD - b) % SIZE_MOD

/-- Unsigned addition `a + b` in `size_t`. -/
def size_add (a b : Nat) : Nat := (a + b) % SIZE_MOD

/-- Unsigned subtraction `a - b` in `uint64_t`, for `a b < U64_MOD`. -/
def u64_sub (a b : Nat) : Nat := (a + U64_MOD - b) % U64_MOD

/-! ## `double` values and the rate formula -/

/-- Value of a `double` expression of the meters, which are all non-negative: a
finite binary64 value (held as the rational it denotes), `+Inf`, or `NaN`. -/
inductive FVal where
  | fin (q : ℚ)
  | inf
  | nan
  deriving DecidableEq

/-- Rounding of a rational to the nearest integer, ties to the even one. -/
def round_half_even (m : ℚ) : ℤ :=
  if m - ⌊m⌋ < 1 / 2 then ⌊m⌋
  else if 1 / 2 < m - ⌊m⌋ then ⌊m⌋ + 1
  else if ⌊m⌋ % 2 = 0 then ⌊m⌋ else ⌊m⌋ + 1

/-- Exponent of the binade of a positive value: `floor (log2 q)`, not below the
smallest normal exponent `-1022` of binary64. -/
def binade (q : ℚ) : ℤ := max (Int.log 2 q) (-1022)

/-- Spacing of the binary64 values in the binade of `q` (53 significant bits). -/
def ulp (q : ℚ) : ℚ := (2 : ℚ) ^ (binade q - 52)

/-- The binary64 value of a non-negative real: round to nearest, ties to even,
overflow to `+Inf` from `2 ^ 1024` on. -/
def rnd (q : ℚ) : FVal :=
  if q = 0 then FVal.fin 0
  else if (2 : ℚ) ^ (1024 : ℕ) ≤ (round_half_even (q / ulp q) : ℚ) * ulp q then FVal.inf
  else FVal.fin ((round_half_even (q / ulp q) : ℚ) * ulp q)

/-- Unit roundoff of binary64. -/
def DBL_EPS : ℚ := 1 / 2 ^ 53

/-- Conversion of an unsigned integer (`size_t` or `uint64_t`) to `double`. -/
def conv (n : Nat) : FVal := rnd (n : ℚ)

/-- The product `x * y` of two non-negative doubles. -/
def fmul : FVal → FVal → FVal
  | FVal.nan, _ => FVal.nan
  | _, FVal.nan => FVal.nan
  | FVal.inf, FVal.inf => FVal.inf
  | FVal.inf, FVal.fin b => if b = 0 then FVal.nan else FVal.inf
  | FVal.fin a, FVal.inf => if a = 0 then FVal.nan else FVal.inf
  | FVal.fin a, FVal.fin b => rnd (a * b)

/-- The quotient `x / y` of two non-negative doubles: a zero divisor gives `NaN`
for `0 / 0` and `+Inf` for a positive dividend. -/
def fdiv : FVal → FVal → FVal
  | FVal.nan, _ => FVal.nan
  | _, FVal.nan => FVal.nan
  | FVal.inf, FVal.inf => FVal.nan
  | FVal.inf, FVal.fin _ => FVal.inf
  | FVal.fin _, FVal.inf => FVal.fin 0
  | FVal.fin a, FVal.fin b =>
    if b = 0 then (if a = 0 then FVal.nan else FVal.inf) else rnd (a / b)

/-- The expression `secs = (end_us - start_us) / 1e6`, given the elapsed
microseconds: the `uint64_t` difference is converted to `double` and divided. -/
def secs_of (elapsed_us : Nat) : FVal := fdiv (conv elapsed_us) (FVal.fin 1000000)

/-- The expression `mbitps = (total * 8.0) / (secs * 1000.0 * 1000.0)` computed
by both meters, every operation rounded to binary64. -/
def mbitps_of (total elapsed_us : Nat) : FVal :=
  fdiv (fmul (conv total) (FVal.fin 8))
    (fmul (fmul (secs_of elapsed_us) (FVal.fin 1000)) (FVal.fin 1000))

/-- The value `v` is the exact value `a` after at most `k` roundings: it differs
from `a` by a factor between `(1 - DBL_EPS) ^ k` and `(1 + DBL_EPS) ^ k`. -/
def near (k : ℕ) (a v : ℚ) : Prop :=
  a * (1 - DBL_EPS) ^ k ≤ v ∧ v ≤ a * (1 + DBL_EPS) ^ k

instance (k : ℕ) (a v : ℚ) : Decidable (near k a v) := by
  unfold near
  exact inferInstance

/-! ## Events -/

/-- Messages of the `ESP_LOGE` calls. -/
inductive Msg where
  | getaddrinfoFailed
  | socketFailed
  | connectFailed
  | connectFail
  | ulOom
  | ulWriteError
  | dlWriteRequestFail
  | dlOom
  | dlReadError
  deriving DecidableEq

/-- Observable actions of the program, in program order.  Socket operations carry
the file descriptor they act on. -/
inductive Ev where
  | socket (ret : Int)
  | connect (fd : Int)
  | write (fd : Int) (req : Nat) (ret : Int)
  | read (fd : Int) (req : Nat) (ret : Int)
  | shutdown (fd : Int)
  | close (fd : Int)
  | free
  | logE (m : Msg)
  | report (total elapsed_us : Nat) (mbitps : FVal)
  | warnNoHeader
  | undefinedBehaviour
  deriving DecidableEq

/-! ## `connect_tcp` -/

/-- Return values of the calls made by `connect_tcp`: `getaddrinfo` (and whether
it left `res` null), `socket` and `connect`. -/
structure ConnEnv where
  gai_err : Int
  res_null : Bool
  sock : Int
  conn : Int

/-- Body of `connect_tcp`: the returned descriptor (or `-1`) and the events. -/
def connect_tcp (e : ConnEnv) : Int × List Ev :=
  if e.gai_err ≠ 0 ∨ e.res_null = true then
    (-1, [Ev.logE Msg.getaddrinfoFailed])
  else if e.sock < 0 then
    (-1, [Ev.socket e.sock, Ev.logE Msg.socketFailed])
  else if e.conn ≠ 0 then
    (-1, [Ev.socket e.sock, Ev.connect e.sock, Ev.logE Msg.connectFailed, Ev.close e.sock])
  else
    (e.sock, [Ev.socket e.sock, Ev.connect e.sock])

/-! ## Upload meter -/

/-- State of the send loop of `run_upload_test` when it is left. -/
structure UlLoop where
  /-- Final value of `total`. -/
  total : Nat
  /-- The `chunk` argument of every `write`, in order. -/
  reqs : List Nat
  /-- Value of `total` after every `total += (size_t)w`, in order. -/
  totals : List Nat
  /-- Events of the loop. -/
  evs : List Ev
  /-- Whether the loop was left through `break` on `w < 0`. -/
  failed : Bool
  deriving DecidableEq

/-- The loop `while (total < UL_TOTAL_BYTES) { ... }` of `run_upload_test`.
`wr i chunk` is the value returned by the `i`-th `write` when asked for `chunk`
bytes.  `none` means the fuel ran out before the loop was left. -/
def ul_loop (fd : Int) (ul_total buf_sz : Nat) (wr : Nat → Nat → Int) :
    Nat → Nat → Nat → Option UlLoop
  | 0, _, _ => none
  | fuel + 1, i, total =>
    if total < ul_total then
      let chunk := min buf_sz (size_sub ul_total total)
      let w := wr i chunk
      if w < 0 then
        some ⟨total, [chunk], [], [Ev.write fd chunk w, Ev.logE Msg.ulWriteError], true⟩
      else
        let total1 := size_add total w.toNat
        match ul_loop fd ul_total buf_sz wr fuel (i + 1) total1 with
        | none => none
        | some r =>
          some ⟨r.total, chunk :: r.reqs, total1 :: r.totals,
                Ev.write fd chunk w :: r.evs, r.failed⟩
    else
      some ⟨total, [], [], [], false⟩

/-- Inputs of one upload run. -/
structure UlEnv where
  conn : ConnEnv
  malloc_ok : Bool
  wr : Nat → Nat → Int
  start_us : Nat
  end_us : Nat

/-- Body of `run_upload_test` in `src/main/esp32-net-speedtest.c`. -/
def run_upload_test (ul_total buf_sz : Nat) (e : UlEnv) (fuel : Nat) : Option (List Ev) :=
  let c := connect_tcp e.conn
  if c.1 < 0 then
    some (c.2 ++ [Ev.logE Msg.connectFail])
  else if e.malloc_ok = false then
    some (c.2 ++ [Ev.logE Msg.ulOom, Ev.close c.1])
  else
    match ul_loop c.1 ul_total buf_sz e.wr fuel 0 0 with
    | none => none
    | some r =>
      let el := u64_sub e.end_us e.start_us
      some (c.2 ++ r.evs ++
        [Ev.shutdown c.1, Ev.report r.total el (mbitps_of r.total el), Ev.free, Ev.close c.1])

/-- Body of `run_upload_test` in `src/upload/upload.c`: a 64-byte `read` whose
result is ignored replaces the `shutdown`. -/
def run_upload_test_v0 (ul_total buf_sz : Nat) (e : UlEnv) (tmp_ret : Int) (fuel : Nat) :
    Option (List Ev) :=
  let c := connect_tcp e.conn
  if c.1 < 0 then
    some (c.2 ++ [Ev.logE Msg.connectFail])
  else if e.malloc_ok = false then
    some (c.2 ++ [Ev.logE Msg.ulOom, Ev.close c.1])
  else
    match ul_loop c.1 ul_total buf_sz e.wr fuel 0 0 with
    | none => none
    | some r =>
      let el := u64_sub e.end_us e.start_us
      some (c.2 ++ r.evs ++
        [Ev.read c.1 64 tmp_ret, Ev.report r.total el (mbitps_of r.total el), Ev.free,
         Ev.close c.1])

/-! ## Download meter -/

/-- The byte `'\r'`. -/
def CR : Nat := 13

/-- The byte `'\n'`. -/
def LF : Nat := 10

/-- The needle `"\r\n\r\n"`. -/
def CRLFCRLF : List Nat := [CR, LF, CR, LF]

/-- Result of `strstr(buf, "\r\n\r\n")` on the bytes of the allocated buffer. -/
inductive Strstr where
  /-- A pointer `buf + off` to the first occurrence. -/
  | found (off : Nat)
  /-- `NULL`: the string ends (at a NUL byte) without an occurrence. -/
  | null
  /-- The scan leaves the buffer: no occurrence and no NUL byte inside it. -/
  | overrun
  deriving DecidableEq

/-- The C call `strstr((char*)buf, "\r\n\r\n")`, scanning `mem` (the bytes from the
current position to the end of the buffer) from offset `off`.  The haystack is
the C string starting at the pointer, that is, the bytes before the first NUL. -/
def strstr_from : List Nat → Nat → Strstr
  | [], _ => Strstr.overrun
  | b :: rest, off =>
    if CRLFCRLF.isPrefixOf (b :: rest) then Strstr.found off
    else if b = 0 then Strstr.null
    else strstr_from rest (off + 1)

/-- The call `strstr((char*)buf, "\r\n\r\n")`. -/
def strstr (buf : List Nat) : Strstr := strstr_from buf 0

/-- Value returned by one `read(s, buf, buf_sz)`. -/
inductive ReadRes where
  /-- A negative return value. -/
  | err
  /-- The bytes delivered; `r` is their number, and `r = 0` is end of file. -/
  | data (bs : List Nat)
  deriving DecidableEq

/-- Local variables of `run_download_test` that the loop updates. -/
structure DlState where
  buf : List Nat
  start_us : Nat
  total : Nat
  header_done : Bool
  deriving DecidableEq

/-- Contents of the buffer after a `read` that stored `bs` at its start: the
bytes beyond `r` keep their previous values. -/
def buf_after_read (buf bs : List Nat) : List Nat := bs ++ buf.drop bs.length

/-- One iteration of the `for (;;)` loop after a `read` with `r > 0`, up to the
cap test: the `if (!header_done) ... else ...` statement.  `now` is the value
`esp_timer_get_time()` returns if it is called.  `none` when `strstr` leaves the
buffer. -/
def dl_step (now : Nat) (st : DlState) (bs : List Nat) : Option DlState :=
  let buf := buf_after_read st.buf bs
  let r := bs.length
  if st.header_done = false then
    match strstr buf with
    | Strstr.found p =>
      let header_len := p + 4
      let body_len := size_sub r header_len
      some ⟨buf, now, size_add st.total body_len, true⟩
    | Strstr.null => some ⟨buf, st.start_us, st.total, false⟩
    | Strstr.overrun => none
  else
    some ⟨buf, st.start_us, size_add st.total r, true⟩

/-- How the read loop was left. -/
inductive DlExit where
  | readError
  | eof
  | capReached
  | undefinedBehaviour
  deriving DecidableEq

/-- Outcome of the read loop. -/
structure DlLoop where
  st : DlState
  /-- Return value of every `read` issued, in order. -/
  rets : List Int
  /-- Value of `total` at the cap test of every iteration that reaches it. -/
  totals : List Nat
  exit : DlExit
  deriving DecidableEq

/-- The loop `for (;;) { ... }` of `run_download_test`.  The list gives the results
of the successive `read` calls; after its end every `read` returns 0. -/
def dl_loop (dl_limit now : Nat) : DlState → List ReadRes → DlLoop
  | st, [] => ⟨st, [0], [], DlExit.eof⟩
  | st, ReadRes.err :: _ => ⟨st, [-1], [], DlExit.readError⟩
  | st, ReadRes.data [] :: _ => ⟨st, [0], [], DlExit.eof⟩
  | st, ReadRes.data (b :: bs) :: rest =>
    match dl_step now st (b :: bs) with
    | none => ⟨st, [((b :: bs).length : Int)], [], DlExit.undefinedBehaviour⟩
    | some st1 =>
      if 0 < dl_limit ∧ dl_limit ≤ st1.total then
        ⟨st1, [((b :: bs).length : Int)], [st1.total], DlExit.capReached⟩
      else
        let r := dl_loop dl_limit now st1 rest
        ⟨r.st, ((b :: bs).length : Int) :: r.rets, st1.total :: r.totals, r.exit⟩

/-- Inputs of one download run. -/
structure DlEnv where
  conn : ConnEnv
  /-- Length `n` of the request built by `snprintf`. -/
  req_len : Nat
  /-- Value returned by the `write` of the request. -/
  req_ret : Int
  malloc_ok : Bool
  /-- Initial contents of the `malloc`ed buffer, `buf_sz` bytes. -/
  buf0 : List Nat
  reads : List ReadRes
  /-- Clock value at the header boundary. -/
  start_us : Nat
  /-- Clock value after the loop. -/
  end_us : Nat

/-- Initial values of the loop variables. -/
def dl_init (buf0 : List Nat) : DlState := ⟨buf0, 0, 0, false⟩

/-- Events of the `read` calls with the given return values. -/
def read_evs (fd : Int) (buf_sz : Nat) (rets : List Int) : List Ev :=
  rets.map (fun r => Ev.read fd buf_sz r)

/-- Events after the loop of `run_download_test`. -/
def dl_tail (fd : Int) (end_us : Nat) (r : DlLoop) : List Ev :=
  if r.exit = DlExit.undefinedBehaviour then [Ev.undefinedBehaviour]
  else
    (if r.exit = DlExit.readError then [Ev.logE Msg.dlReadError] else []) ++
    (if r.st.header_done = true then
      [Ev.report r.st.total (u64_sub end_us r.st.start_us)
        (mbitps_of r.st.total (u64_sub end_us r.st.start_us))]
     else [Ev.warnNoHeader]) ++
    [Ev.free, Ev.close fd]

/-- Body of `run_download_test`. -/
def run_download_test (dl_limit buf_sz : Nat) (e : DlEnv) : List Ev :=
  let c := connect_tcp e.conn
  if c.1 < 0 then
    c.2 ++ [Ev.logE Msg.connectFail]
  else if e.req_ret ≠ (e.req_len : Int) then
    c.2 ++ [Ev.write c.1 e.req_len e.req_ret, Ev.logE Msg.dlWriteRequestFail, Ev.close c.1]
  else if e.malloc_ok = false then
    c.2 ++ [Ev.write c.1 e.req_len e.req_ret, Ev.logE Msg.dlOom, Ev.close c.1]
  else
    let r := dl_loop dl_limit e.start_us (dl_init e.buf0) e.reads
    c.2 ++ [Ev.write c.1 e.req_len e.req_ret] ++ read_evs c.1 buf_sz r.rets ++
      dl_tail c.1 e.end_us r

/-! ## Properties of event lists -/

/-- Whether an event is an operation on the socket `fd`. -/
def is_sock_op (fd : Int) : Ev → Bool
  | Ev.socket f => decide (f = fd)
  | Ev.connect f => decide (f = fd)
  | Ev.write f _ _ => decide (f = fd)
  | Ev.read f _ _ => decide (f = fd)
  | Ev.shutdown f => decide (f = fd)
  | Ev.close f => decide (f = fd)
  | _ => false

/-- The operations on the socket `fd`, in order. -/
def sock_ops (fd : Int) (tr : List Ev) : List Ev := tr.filter (is_sock_op fd)

/-- The socket `fd` is closed exactly once, and the `close` is the last operation
on it. -/
def closed_once_last (fd : Int) (tr : List Ev) : Prop :=
  (sock_ops fd tr).getLast? = some (Ev.close fd) ∧ (sock_ops fd tr).count (Ev.close fd) = 1

instance (fd : Int) (tr : List Ev) : Decidable (closed_once_last fd tr) := by
  unfold closed_once_last
  exact inferInstance

/-- Bytes accepted by the `write` calls of an event list: the sum of their
non-negative return values. -/
def written : List Ev → Nat
  | [] => 0
  | Ev.write _ _ w :: rest => w.toNat + written rest
  | _ :: rest => written rest

/-- Whether an event creates or closes a socket. -/
def creates_or_closes : Ev → Bool
  | Ev.socket _ => true
  | Ev.close _ => true
  | _ => false

/-- No event of the list creates or closes a socket. -/
def no_socket_close (l : List Ev) : Prop :=
  ∀ e ∈ l, creates_or_closes e = false

instance (l : List Ev) : Decidable (no_socket_close l) := by
  unfold no_socket_close
  exact inferInstance

/-! ## Responses and concrete inputs -/

/-- ASCII bytes of a string. -/
def bytes (s : String) : List Nat := s.toList.map Char.toNat

/-- A stream that accepts one byte less than requested when asked for more than
one byte, and the single byte otherwise. -/
def wr_partial (_ : Nat) (n : Nat) : Int := if 1 < n then (n : Int) - 1 else (n : Int)

/-- A stream that accepts every write in full. -/
def wr_full (_ : Nat) (n : Nat) : Int := (n : Int)

/-- Offset of the first occurrence of `"\r\n\r\n"` in a byte sequence (plain list
search, used to describe responses; not part of the program). -/
def first_marker : List Nat → Option Nat
  | [] => none
  | b :: rest =>
    if CRLFCRLF.isPrefixOf (b :: rest) then some 0 else (first_marker rest).map (· + 1)

/-- Bytes delivered by a sequence of reads before the first end of file or error. -/
def stream_bytes : List ReadRes → List Nat
  | [] => []
  | ReadRes.err :: _ => []
  | ReadRes.data [] :: _ => []
  | ReadRes.data (b :: bs) :: rest => (b :: bs) ++ stream_bytes rest

/-- The value of the macro `IO_BUF_SIZE`. -/
def IO_BUF_SIZE : Nat := 32 * 1024

/-- A freshly allocated buffer whose bytes are all zero. -/
def zero_buf : List Nat := List.replicate IO_BUF_SIZE 0

/-- A response whose status line and first header line arrive in two separate
reads; the peer then closes. -/
def reads_two_lines : List ReadRes :=
  [ReadRes.data (bytes "HTTP/1.1 200 OK\r\n"), ReadRes.data (bytes "Server: nginx\r\n")]

/-- The response `"HTTP/1.1 200 OK\r\nServer: nginx\r\nContent-Length: 5\r\n\r\nHELLO"`
delivered in three reads, the blank line and the body in the third. -/
def reads_three : List ReadRes :=
  [ReadRes.data (bytes "HTTP/1.1 200 OK\r\n"), ReadRes.data (bytes "Server: nginx\r\n"),
   ReadRes.data (bytes "Content-Length: 5\r\n\r\nHELLO")]

/-- The response `"HTTP/1.1 200 OK\r\nContent-Length: 5\r\n\r\nHELLO"` delivered in two
reads that cut the blank line in the middle. -/
def reads_straddle : List ReadRes :=
  [ReadRes.data (bytes "HTTP/1.1 200 OK\r\nContent-Length: 5\r\n"),
   ReadRes.data (bytes "\r\nHELLO")]

/-- A connection that succeeds on descriptor 3. -/
def conn_ok : ConnEnv := ⟨0, false, 3, 0⟩

/-- A download run over `reads`: the request of 80 bytes is written in full, the
buffer is allocated zero-filled, the clock reads 1000 at the boundary and 5000
after the loop. -/
def dl_env (reads : List ReadRes) : DlEnv := ⟨conn_ok, 80, 80, true, zero_buf, reads, 1000, 5000⟩

/-- Loop variables after the read of the status line `"HTTP/1.1 200 OK\r\n"` into
the zero-filled buffer: no boundary found, nothing counted. -/
def st_after_status : DlState :=
  ⟨buf_after_read zero_buf (bytes "HTTP/1.1 200 OK\r\n"), 0, 0, false⟩

/-- A stream that accepts 512 bytes on the first write and fails on the second. -/
def wr_fail_second (i : Nat) (_ : Nat) : Int := if i = 0 then 512 else -1

/-- An upload run over `wr`: the connection succeeds on descriptor 3, the buffer is
allocated, the clock reads `start_us` before the loop and `end_us` after the
shutdown. -/
def ul_env (wr : Nat → Nat → Int) (start_us end_us : Nat) : UlEnv :=
  ⟨conn_ok, true, wr, start_us, end_us⟩

/-- The response `"HTTP/1.1 200 OK\r\n\r\nHE"` in one read, then a read error. -/
def reads_then_error : List ReadRes :=
  [ReadRes.data (bytes "HTTP/1.1 200 OK\r\n\r\nHE"), ReadRes.err]

/-- The response `"HTTP/1.1 200 OK\r\n\r\nHELLOWORLD"` in three reads: the headers with
2 body bytes, then 3 and 5 body bytes. -/
def reads_body : List ReadRes :=
  [ReadRes.data (bytes "HTTP/1.1 200 OK\r\n\r\nHE"), ReadRes.data (bytes "LLO"),
   ReadRes.data (bytes "WORLD")]

/-- A connection whose `connect` call fails after the socket 3 was created. -/
def conn_refused : ConnEnv := ⟨0, false, 3, -1⟩
/-! ## Word arithmetic -/

theorem size_sub_of_le {a b : Nat} (hba : b ≤ a) (ha : a < SIZE_MOD) :
    size_sub a b = a - b := by
  unfold size_sub
  have h : a + SIZE_MOD - b = (a - b) + SIZE_MOD := by omega
  rw [h, Nat.add_mod_right, Nat.mod_eq_of_lt (by omega)]

theorem size_add_of_lt {a b : Nat} (h : a + b < SIZE_MOD) : size_add a b = a + b := by
  unfold size_add
  exact Nat.mod_eq_of_lt h

/-! ## Upload loop -/

/-- Progress of the send loop: from any reachable state (`total ≤ ul_total`), with
writes that accept between 1 and the requested number of bytes, enough fuel leads
to the exit with `total = ul_total`. -/
theorem ul_loop_progress (fd : Int) (t c : Nat) (wr : Nat → Nat → Int)
    (ht : t < SIZE_MOD) (hc : 1 ≤ c)
    (hw : ∀ i n, 1 ≤ n → 1 ≤ wr i n ∧ wr i n ≤ (n : Int)) :
    ∀ fuel i total, total ≤ t → t - total < fuel →
      ∃ r, ul_loop fd t c wr fuel i total = some r ∧ r.total = t ∧ r.failed = false ∧
        (∀ x ∈ r.totals, x ≤ t) ∧ (∀ q ∈ r.reqs, q ≤ c) ∧
        r.reqs.length = r.totals.length := by
  intro fuel
  induction fuel with
  | zero => intro i total _ h; omega
  | succ fuel ih =>
    intro i total hle hfuel
    unfold ul_loop
    by_cases hlt : total < t
    · have hsub : size_sub t total = t - total := size_sub_of_le hle ht
      have hchunk : 1 ≤ min c (t - total) := by
        apply le_min hc; omega
      obtain ⟨hw1, hw2⟩ := hw i (min c (t - total)) hchunk
      have hwn : ¬ wr i (min c (t - total)) < 0 := by omega
      have hnat : (wr i (min c (t - total))).toNat ≤ min c (t - total) := by omega
      have hnat1 : 1 ≤ (wr i (min c (t - total))).toNat := by omega
      have hle2 : (wr i (min c (t - total))).toNat ≤ t - total :=
        le_trans hnat (min_le_right _ _)
      have hadd : size_add total (wr i (min c (t - total))).toNat
          = total + (wr i (min c (t - total))).toNat :=
        size_add_of_lt (by omega)
      simp only [hlt, if_true, hsub, hwn, if_false, hadd]
      obtain ⟨r, hr, hr1, hr2, hr3, hr4, hr5⟩ :=
        ih (i + 1) (total + (wr i (min c (t - total))).toNat) (by omega) (by omega)
      rw [hr]
      refine ⟨_, rfl, hr1, hr2, ?_, ?_, ?_⟩
      · intro x hx
        rcases List.mem_cons.1 hx with h | h
        · omega
        · exact hr3 x h
      · intro q hq
        rcases List.mem_cons.1 hq with h | h
        · rw [h]; exact min_le_left _ _
        · exact hr4 q h
      · simp [hr5]
    · have : total = t := by omega
      simp only [hlt, if_false]
      exact ⟨_, rfl, this, rfl, by simp, by simp, rfl⟩

/-- C4. Upload completes exactly: for every total `t` and chunk size `c ≥ 1` (both
`size_t` values) and every stream whose writes accept at least 1 and at most the
requested number of bytes, the send loop of `run_upload_test` terminates (any fuel
above `t` suffices) through its loop condition with `total = t`, and `total`
never exceeds `t` after any iteration. -/
theorem upload_completes_exactly (fd : Int) (t c : Nat) (wr : Nat → Nat → Int)
    (fuel : Nat) (ht : t < SIZE_MOD) (hc : 1 ≤ c)
    (hw : ∀ i n, 1 ≤ n → 1 ≤ wr i n ∧ wr i n ≤ (n : Int)) (hfuel : t < fuel) :
    ∃ r, ul_loop fd t c wr fuel 0 0 = some r ∧ r.total = t ∧ r.failed = false ∧
      (∀ x ∈ r.totals, x ≤ t) := by
  obtain ⟨r, h1, h2, h3, h4, _⟩ :=
    ul_loop_progress fd t c wr ht hc hw fuel 0 0 (Nat.zero_le _) (by omega)
  exact ⟨r, h1, h2, h3, h4⟩

/-- Witness of C4: 10 bytes in chunks of 4 over a stream that accepts one byte less than
requested. -/
theorem upload_completes_exactly_witness :
    ∃ r, ul_loop 3 10 4 wr_partial 11 0 0 = some r ∧ r.total = 10 ∧ r.failed = false ∧
      (∀ x ∈ r.totals, x ≤ 10) :=
  upload_completes_exactly 3 10 4 wr_partial 11 (by decide) (by decide)
    (by intro i n hn; unfold wr_partial; split <;> omega) (by decide)

/-- Number of writes still to come when `d` bytes remain: `ceil (d / c)`. -/
theorem ceil_div_step {c d : Nat} (hc : 1 ≤ c) (hcd : c ≤ d) :
    (d + c - 1) / c = (d - c + c - 1) / c + 1 := by
  have h : d + c - 1 = (d - c + c - 1) + c := by omega
  rw [h, Nat.add_div_right _ (by omega : 0 < c)]

theorem ceil_div_small {c d : Nat} (hd : 1 ≤ d) (hdc : d < c) : (d + c - 1) / c = 1 := by
  have h : d + c - 1 = (d - 1) + c := by omega
  rw [h, Nat.add_div_right _ (by omega : 0 < c), Nat.div_eq_of_lt (by omega)]

theorem ceil_div_zero {c : Nat} (hc : 1 ≤ c) : (0 + c - 1) / c = 0 := by
  apply Nat.div_eq_of_lt; omega

/-- Closed form of the send loop against a stream that accepts every write in
full, from any reachable state. -/
theorem ul_loop_full (fd : Int) (t c : Nat) (wr : Nat → Nat → Int)
    (ht : t < SIZE_MOD) (hc : 1 ≤ c) (hw : ∀ i n, wr i n = (n : Int)) :
    ∀ fuel i total, total ≤ t → t - total < fuel →
      ∃ r, ul_loop fd t c wr fuel i total = some r ∧ r.total = t ∧ r.failed = false ∧
        r.reqs = (List.range ((t - total + c - 1) / c)).map
          (fun k => min c (t - total - k * c)) ∧
        r.totals = (List.range ((t - total + c - 1) / c)).map
          (fun k => min t (total + (k + 1) * c)) := by
  intro fuel
  induction fuel with
  | zero => intro i total _ h; omega
  | succ fuel ih =>
    intro i total hle hfuel
    unfold ul_loop
    by_cases hlt : total < t
    · have hsub : size_sub t total = t - total := size_sub_of_le hle ht
      have hwn : ¬ wr i (min c (t - total)) < 0 := by rw [hw]; omega
      have hnat : (wr i (min c (t - total))).toNat = min c (t - total) := by rw [hw]; rfl
      have hle2 : min c (t - total) ≤ t - total := min_le_right _ _
      have hadd : size_add total (min c (t - total)) = total + min c (t - total) :=
        size_add_of_lt (by omega)
      simp only [hlt, if_true, hsub, hwn, if_false, hnat, hadd]
      obtain ⟨r, hr, hr1, hr2, hr3, hr4⟩ :=
        ih (i + 1) (total + min c (t - total)) (by omega) (by
          have : 1 ≤ min c (t - total) := le_min hc (by omega)
          omega)
      rw [hr]
      refine ⟨_, rfl, hr1, hr2, ?_, ?_⟩
      · show min c (t - total) :: r.reqs = _
        rw [hr3]
        by_cases hcd : c ≤ t - total
        · have hmin : min c (t - total) = c := min_eq_left hcd
          have hd : t - (total + c) = t - total - c := by omega
          rw [hmin, ceil_div_step hc hcd, List.range_succ_eq_map, hd]
          simp only [List.map_cons, List.map_map, Nat.zero_mul, Nat.sub_zero, hmin]
          congr 1
          apply List.map_congr_left
          intro k _
          simp only [Function.comp, Nat.succ_eq_add_one]
          congr 1
          rw [Nat.add_mul, Nat.one_mul]
          omega
        · have hmin : min c (t - total) = t - total := min_eq_right (by omega)
          have hd : t - (total + (t - total)) = 0 := by omega
          have hr1 : List.range 1 = [0] := rfl
          rw [hmin, hd, ceil_div_zero hc, ceil_div_small (by omega) (by omega), hr1]
          simp [hmin]
      · show (total + min c (t - total)) :: r.totals = _
        rw [hr4]
        by_cases hcd : c ≤ t - total
        · have hmin : min c (t - total) = c := min_eq_left hcd
          have hd : t - (total + c) = t - total - c := by omega
          rw [hmin, ceil_div_step hc hcd, List.range_succ_eq_map, hd]
          simp only [List.map_cons, List.map_map, Nat.zero_add, Nat.one_mul]
          congr 1
          · rw [min_eq_right (by omega)]
          · apply List.map_congr_left
            intro k _
            simp only [Function.comp, Nat.succ_eq_add_one]
            congr 1
            rw [Nat.add_mul (k + 1) 1 c, Nat.one_mul]
            omega
        · have hmin : min c (t - total) = t - total := min_eq_right (by omega)
          have hd : t - (total + (t - total)) = 0 := by omega
          have hr1 : List.range 1 = [0] := rfl
          have : total + (t - total) = t := by omega
          rw [hmin, hd, ceil_div_zero hc, ceil_div_small (by omega) (by omega), hr1, this]
          simp
          omega
    · have h0 : t - total = 0 := by omega
      simp only [hlt, if_false]
      have hz : (t - total + c - 1) / c = 0 := by rw [h0]; exact ceil_div_zero hc
      refine ⟨_, rfl, ?_, rfl, ?_, ?_⟩
      · show total = t
        omega
      · rw [hz]; rfl
      · rw [hz]; rfl

theorem lt_ceil_div {t c k : Nat} (hc : 1 ≤ c) (hk : k < (t + c - 1) / c) : k * c < t := by
  have h1 : k + 1 ≤ (t + c - 1) / c := hk
  have h2 : (k + 1) * c ≤ t + c - 1 := (Nat.le_div_iff_mul_le (by omega)).1 h1
  rw [Nat.add_mul, Nat.one_mul] at h2
  omega

theorem ceil_div_of_not_dvd {t c : Nat} (hc : 1 ≤ c) (hd : ¬ c ∣ t) :
    (t + c - 1) / c = t / c + 1 := by
  have hm : 0 < t % c := Nat.pos_of_ne_zero (fun h => hd (Nat.dvd_of_mod_eq_zero h))
  have hlt : t % c < c := Nat.mod_lt _ (by omega)
  have hdm : c * (t / c) + t % c = t := Nat.div_add_mod t c
  have h : t + c - 1 = (t % c - 1) + (t / c + 1) * c := by
    rw [Nat.add_mul, Nat.one_mul, Nat.mul_comm (t / c) c]
    omega
  rw [h, Nat.add_mul_div_right _ _ (by omega : 0 < c), Nat.div_eq_of_lt (by omega)]
  omega

/-- C5. Upload write schedule: for every chunk size `c ≥ 1` and total `t` (a
`size_t` value), against a stream that accepts every write in full, the send loop
of `run_upload_test` terminates having issued exactly `ceil (t / c)` writes; before
the `k`-th write `k * c` bytes are sent and the write requests
`min c (t - k * c)` bytes, which is at most `c` and at most the remaining total;
when `c` does not divide `t` the last write requests exactly `t % c` bytes. -/
theorem upload_write_schedule (fd : Int) (t c : Nat) (wr : Nat → Nat → Int) (fuel : Nat)
    (ht : t < SIZE_MOD) (hc : 1 ≤ c) (hw : ∀ i n, wr i n = (n : Int)) (hfuel : t < fuel) :
    ∃ r, ul_loop fd t c wr fuel 0 0 = some r ∧ r.total = t ∧
      r.reqs.length = (t + c - 1) / c ∧
      (∀ k, k < (t + c - 1) / c →
        (0 :: r.totals)[k]? = some (k * c) ∧ r.reqs[k]? = some (min c (t - k * c)) ∧
        min c (t - k * c) ≤ c ∧ min c (t - k * c) ≤ t - k * c) ∧
      (¬ c ∣ t → r.reqs.getLast? = some (t % c)) := by
  obtain ⟨r, h1, h2, _, h4, h5⟩ :=
    ul_loop_full fd t c wr ht hc hw fuel 0 0 (Nat.zero_le _) (by omega)
  simp only [Nat.sub_zero, Nat.zero_add] at h4 h5
  refine ⟨r, h1, h2, ?_, ?_, ?_⟩
  · rw [h4]; simp
  · intro k hk
    refine ⟨?_, ?_, min_le_left _ _, min_le_right _ _⟩
    · cases k with
      | zero => simp
      | succ j =>
        have hj : j < (t + c - 1) / c := by omega
        have hlt := lt_ceil_div hc hk
        rw [List.getElem?_cons_succ, h5, List.getElem?_map, List.getElem?_range hj]
        simp only [Option.map_some']
        rw [min_eq_right (by omega)]
    · rw [h4, List.getElem?_map, List.getElem?_range hk]
      rfl
  · intro hd
    have hmod : t - t / c * c = t % c := by
      have := Nat.div_add_mod t c
      rw [Nat.mul_comm] at this
      omega
    have hlt : t % c < c := Nat.mod_lt _ (by omega)
    rw [h4, ceil_div_of_not_dvd hc hd, List.range_succ, List.map_append]
    simp only [List.map_cons, List.map_nil, List.getLast?_append, List.getLast?_singleton,
      hmod]
    rw [min_eq_right (by omega)]
    rfl

/-- Witness of C5: 10 bytes in chunks of 4 over a stream that accepts every write in
full. -/
theorem upload_write_schedule_witness :
    ∃ r, ul_loop 3 10 4 wr_full 11 0 0 = some r ∧ r.total = 10 ∧
      r.reqs.length = (10 + 4 - 1) / 4 ∧
      (∀ k, k < (10 + 4 - 1) / 4 →
        (0 :: r.totals)[k]? = some (k * 4) ∧ r.reqs[k]? = some (min 4 (10 - k * 4)) ∧
        min 4 (10 - k * 4) ≤ 4 ∧ min 4 (10 - k * 4) ≤ 10 - k * 4) ∧
      (¬ 4 ∣ 10 → r.reqs.getLast? = some (10 % 4)) :=
  upload_write_schedule 3 10 4 wr_full 11 (by decide) (by decide) (fun _ _ => rfl)
    (by decide)

/-! ## Download loop: unfolding and the byte cap -/

theorem dl_loop_nil (cap now : Nat) (st : DlState) :
    dl_loop cap now st [] = ⟨st, [0], [], DlExit.eof⟩ := by
  unfold dl_loop; rfl

theorem dl_loop_err (cap now : Nat) (st : DlState) (rest : List ReadRes) :
    dl_loop cap now st (ReadRes.err :: rest) = ⟨st, [-1], [], DlExit.readError⟩ := by
  unfold dl_loop; rfl

theorem dl_loop_eof (cap now : Nat) (st : DlState) (rest : List ReadRes) :
    dl_loop cap now st (ReadRes.data [] :: rest) = ⟨st, [0], [], DlExit.eof⟩ := by
  unfold dl_loop; rfl

theorem dl_loop_ub (cap now : Nat) (st : DlState) (b : Nat) (bs : List Nat)
    (rest : List ReadRes) (h : dl_step now st (b :: bs) = none) :
    dl_loop cap now st (ReadRes.data (b :: bs) :: rest)
      = ⟨st, [((b :: bs).length : Int)], [], DlExit.undefinedBehaviour⟩ := by
  rw [dl_loop, h]

theorem dl_loop_cap (cap now : Nat) (st st1 : DlState) (b : Nat) (bs : List Nat)
    (rest : List ReadRes) (h : dl_step now st (b :: bs) = some st1)
    (hc : 0 < cap ∧ cap ≤ st1.total) :
    dl_loop cap now st (ReadRes.data (b :: bs) :: rest)
      = ⟨st1, [((b :: bs).length : Int)], [st1.total], DlExit.capReached⟩ := by
  rw [dl_loop, h]
  simp only [hc, and_self, if_true]

theorem dl_loop_more (cap now : Nat) (st st1 : DlState) (b : Nat) (bs : List Nat)
    (rest : List ReadRes) (h : dl_step now st (b :: bs) = some st1)
    (hc : ¬ (0 < cap ∧ cap ≤ st1.total)) :
    dl_loop cap now st (ReadRes.data (b :: bs) :: rest)
      = ⟨(dl_loop cap now st1 rest).st, ((b :: bs).length : Int) :: (dl_loop cap now st1 rest).rets,
          st1.total :: (dl_loop cap now st1 rest).totals, (dl_loop cap now st1 rest).exit⟩ := by
  rw [dl_loop, h]
  simp only [hc, if_false]

/-- Without a cap the loop is never left by the cap test: it ends at the first
`read` that returns 0 or a negative value (or when `strstr` leaves the buffer),
and every earlier `read` returned a positive value. -/
theorem dl_loop_uncapped (now : Nat) (reads : List ReadRes) :
    ∀ st, (dl_loop 0 now st reads).exit ≠ DlExit.capReached ∧
      (∀ x ∈ (dl_loop 0 now st reads).rets.dropLast, 0 < x) ∧
      ((dl_loop 0 now st reads).exit = DlExit.eof →
        (dl_loop 0 now st reads).rets.getLast? = some 0) ∧
      ((dl_loop 0 now st reads).exit = DlExit.readError →
        (dl_loop 0 now st reads).rets.getLast? = some (-1)) ∧
      (dl_loop 0 now st reads).rets.length = (dl_loop 0 now st reads).totals.length + 1 := by
  induction reads with
  | nil => intro st; rw [dl_loop_nil]; simp
  | cons rd rest ih =>
    intro st
    cases rd with
    | err => rw [dl_loop_err]; simp
    | data l =>
      cases l with
      | nil => rw [dl_loop_eof]; simp
      | cons b bs =>
        cases hs : dl_step now st (b :: bs) with
        | none => rw [dl_loop_ub _ _ _ _ _ _ hs]; simp
        | some st1 =>
          rw [dl_loop_more 0 now st st1 b bs rest hs (by omega)]
          obtain ⟨h1, h2, h3, h4, h5⟩ := ih st1
          have hne : (dl_loop 0 now st1 rest).rets ≠ [] := by
            intro h; rw [h] at h5; simp at h5
          refine ⟨h1, ?_, ?_, ?_, ?_⟩
          · intro x hx
            simp only [List.dropLast_cons_of_ne_nil hne, List.mem_cons] at hx
            rcases hx with h | h
            · rw [h]; simp
            · exact h2 x h
          · intro he
            show (_ :: (dl_loop 0 now st1 rest).rets).getLast? = _
            rw [List.getLast?_cons, h3 he]; rfl
          · intro he
            show (_ :: (dl_loop 0 now st1 rest).rets).getLast? = _
            rw [List.getLast?_cons, h4 he]; rfl
          · simp [h5]

/-- With a cap that no accumulated count of the uncapped run reaches, the loop
runs exactly as without a cap. -/
theorem dl_loop_cap_not_reached (cap now : Nat) (reads : List ReadRes) :
    ∀ st, (∀ x ∈ (dl_loop 0 now st reads).totals, x < cap) →
      dl_loop cap now st reads = dl_loop 0 now st reads := by
  induction reads with
  | nil => intro st _; rw [dl_loop_nil, dl_loop_nil]
  | cons rd rest ih =>
    intro st hall
    cases rd with
    | err => rw [dl_loop_err, dl_loop_err]
    | data l =>
      cases l with
      | nil => rw [dl_loop_eof, dl_loop_eof]
      | cons b bs =>
        cases hs : dl_step now st (b :: bs) with
        | none => rw [dl_loop_ub _ _ _ _ _ _ hs, dl_loop_ub _ _ _ _ _ _ hs]
        | some st1 =>
          rw [dl_loop_more 0 now st st1 b bs rest hs (by omega)] at hall ⊢
          have h0 : st1.total < cap := hall _ (List.mem_cons_self _ _)
          rw [dl_loop_more cap now st st1 b bs rest hs (by omega)]
          rw [ih st1 (fun x hx => hall x (List.mem_cons_of_mem _ hx))]

/-- With a cap, the loop is left right after the first read that brings the
accumulated count to at least the cap: if the `k`-th count of the uncapped run is
the first one that reaches the cap, the capped run issues the first `k + 1` reads
of the uncapped run and no other. -/
theorem dl_loop_cap_reached (cap now : Nat) (hcap : 0 < cap) (reads : List ReadRes) :
    ∀ st k x, (dl_loop 0 now st reads).totals[k]? = some x → cap ≤ x →
      (∀ j y, j < k → (dl_loop 0 now st reads).totals[j]? = some y → y < cap) →
      (dl_loop cap now st reads).exit = DlExit.capReached ∧
      (dl_loop cap now st reads).rets = (dl_loop 0 now st reads).rets.take (k + 1) ∧
      (dl_loop cap now st reads).totals = (dl_loop 0 now st reads).totals.take (k + 1) ∧
      (dl_loop cap now st reads).st.total = x := by
  induction reads with
  | nil => intro st k x h; rw [dl_loop_nil] at h; simp at h
  | cons rd rest ih =>
    intro st k x hk hx hbefore
    cases rd with
    | err => rw [dl_loop_err] at hk; simp at hk
    | data l =>
      cases l with
      | nil => rw [dl_loop_eof] at hk; simp at hk
      | cons b bs =>
        cases hs : dl_step now st (b :: bs) with
        | none => rw [dl_loop_ub _ _ _ _ _ _ hs] at hk; simp at hk
        | some st1 =>
          rw [dl_loop_more 0 now st st1 b bs rest hs (by omega)] at hk hbefore ⊢
          cases k with
          | zero =>
            simp only [List.getElem?_cons_zero, Option.some.injEq] at hk
            rw [dl_loop_cap cap now st st1 b bs rest hs ⟨hcap, by omega⟩]
            simp [hk]
          | succ k =>
            simp only [List.getElem?_cons_succ] at hk
            have h0 : st1.total < cap := hbefore 0 st1.total (by omega) (by simp)
            rw [dl_loop_more cap now st st1 b bs rest hs (by omega)]
            obtain ⟨h1, h2, h3, h4⟩ := ih st1 k x hk hx (fun j y hj hy =>
              hbefore (j + 1) y (by omega) (by simpa using hy))
            refine ⟨h1, ?_, ?_, h4⟩
            · simp [h2]
            · simp [h3]

/-- C8. Download byte cap.  Without a cap (`dl_limit = 0`) the read loop of
`run_download_test` is never left by the cap test: it ends at a `read` that returns
0 or a negative value (or when `strstr` leaves the buffer), every earlier `read`
having returned a positive value.  With a cap `> 0`, compared with the run without
cap on the same reads: if no accumulated count reaches the cap the two runs are
equal, and if the `k`-th count is the first that reaches it, the loop is left by
the cap test right after the `read` of that iteration, having issued exactly the
first `k + 1` reads. -/
theorem download_byte_cap (cap now : Nat) (st : DlState) (reads : List ReadRes) :
    ((dl_loop 0 now st reads).exit ≠ DlExit.capReached ∧
      (∀ r ∈ (dl_loop 0 now st reads).rets.dropLast, 0 < r) ∧
      ((dl_loop 0 now st reads).exit = DlExit.eof →
        (dl_loop 0 now st reads).rets.getLast? = some 0) ∧
      ((dl_loop 0 now st reads).exit = DlExit.readError →
        (dl_loop 0 now st reads).rets.getLast? = some (-1))) ∧
    (0 < cap → (∀ x ∈ (dl_loop 0 now st reads).totals, x < cap) →
      dl_loop cap now st reads = dl_loop 0 now st reads) ∧
    (0 < cap → ∀ k x, (dl_loop 0 now st reads).totals[k]? = some x → cap ≤ x →
      (∀ j y, j < k → (dl_loop 0 now st reads).totals[j]? = some y → y < cap) →
      (dl_loop cap now st reads).exit = DlExit.capReached ∧
      (dl_loop cap now st reads).rets = (dl_loop 0 now st reads).rets.take (k + 1) ∧
      (dl_loop cap now st reads).totals = (dl_loop 0 now st reads).totals.take (k + 1) ∧
      (dl_loop cap now st reads).st.total = x) := by
  obtain ⟨h1, h2, h3, h4, _⟩ := dl_loop_uncapped now reads st
  exact ⟨⟨h1, h2, h3, h4⟩, fun _ h => dl_loop_cap_not_reached cap now reads st h,
    fun hcap k x => dl_loop_cap_reached cap now hcap reads st k x⟩

/-! ## Shape of the event lists -/

theorem written_append (a b : List Ev) : written (a ++ b) = written a + written b := by
  induction a with
  | nil => simp [written]
  | cons e a ih =>
    cases e <;> simp [written, ih]
    omega

/-- The events of `connect_tcp`: on success the socket is created and connected
and nothing else happens; on failure the result is `-1`. -/
theorem connect_tcp_shape (e : ConnEnv) :
    (0 ≤ (connect_tcp e).1 ∧ (connect_tcp e).1 = e.sock ∧
        (connect_tcp e).2 = [Ev.socket e.sock, Ev.connect e.sock]) ∨
    ((connect_tcp e).1 = -1 ∧
      ((connect_tcp e).2 = [Ev.logE Msg.getaddrinfoFailed] ∨
       ((connect_tcp e).2 = [Ev.socket e.sock, Ev.logE Msg.socketFailed] ∧ e.sock < 0) ∨
       ((connect_tcp e).2 =
          [Ev.socket e.sock, Ev.connect e.sock, Ev.logE Msg.connectFailed, Ev.close e.sock] ∧
        0 ≤ e.sock))) := by
  unfold connect_tcp
  split
  · right; exact ⟨rfl, Or.inl rfl⟩
  · split
    · rename_i h; right; exact ⟨rfl, Or.inr (Or.inl ⟨rfl, h⟩)⟩
    · rename_i h
      split
      · right; exact ⟨rfl, Or.inr (Or.inr ⟨rfl, by omega⟩)⟩
      · left; exact ⟨by simpa using h, rfl, rfl⟩

theorem connect_tcp_no_write (e : ConnEnv) (fd : Int) (n : Nat) (w : Int) :
    Ev.write fd n w ∉ (connect_tcp e).2 := by
  rcases connect_tcp_shape e with ⟨_, _, h⟩ | ⟨_, h | ⟨h, _⟩ | ⟨h, _⟩⟩ <;> rw [h] <;> simp

theorem connect_tcp_no_read (e : ConnEnv) (fd : Int) (n : Nat) (w : Int) :
    Ev.read fd n w ∉ (connect_tcp e).2 := by
  rcases connect_tcp_shape e with ⟨_, _, h⟩ | ⟨_, h | ⟨h, _⟩ | ⟨h, _⟩⟩ <;> rw [h] <;> simp

theorem connect_tcp_no_report (e : ConnEnv) (b el : Nat) (rate : FVal) :
    Ev.report b el rate ∉ (connect_tcp e).2 := by
  rcases connect_tcp_shape e with ⟨_, _, h⟩ | ⟨_, h | ⟨h, _⟩ | ⟨h, _⟩⟩ <;> rw [h] <;> simp

theorem connect_tcp_written (e : ConnEnv) : written (connect_tcp e).2 = 0 := by
  rcases connect_tcp_shape e with ⟨_, _, h⟩ | ⟨_, h | ⟨h, _⟩ | ⟨h, _⟩⟩ <;> rw [h] <;> rfl

/-- The events of the send loop: writes with non-negative results, followed, when
the loop is left on an error, by the failing write and its log message; the final
`total` is the number of bytes accepted, in `size_t`. -/
theorem ul_loop_shape (fd : Int) (t c : Nat) (wr : Nat → Nat → Int) :
    ∀ fuel i total r, total < SIZE_MOD → ul_loop fd t c wr fuel i total = some r →
      r.total = (total + written r.evs) % SIZE_MOD ∧
      ((r.failed = false ∧ ∀ e ∈ r.evs, ∃ n w, e = Ev.write fd n w ∧ 0 ≤ w) ∨
       (r.failed = true ∧ ∃ ws n w, r.evs = ws ++ [Ev.write fd n w, Ev.logE Msg.ulWriteError] ∧
          w < 0 ∧ ∀ e ∈ ws, ∃ n w, e = Ev.write fd n w ∧ 0 ≤ w)) := by
  intro fuel
  induction fuel with
  | zero => intro i total r _ h; simp [ul_loop] at h
  | succ fuel ih =>
    intro i total r hM h
    unfold ul_loop at h
    by_cases hlt : total < t
    · simp only [hlt, if_true] at h
      by_cases hneg : wr i (min c (size_sub t total)) < 0
      · simp only [hneg, if_true, Option.some.injEq] at h
        subst h
        refine ⟨?_, Or.inr ⟨rfl, [], _, _, rfl, hneg, by simp⟩⟩
        have hz : (wr i (min c (size_sub t total))).toNat = 0 := by omega
        simp [written, hz, Nat.mod_eq_of_lt hM]
      · simp only [hneg, if_false] at h
        cases hrec : ul_loop fd t c wr fuel (i + 1)
            (size_add total (wr i (min c (size_sub t total))).toNat) with
        | none => rw [hrec] at h; simp at h
        | some r1 =>
          rw [hrec] at h
          simp only [Option.some.injEq] at h
          subst h
          have hM1 : size_add total (wr i (min c (size_sub t total))).toNat < SIZE_MOD :=
            Nat.mod_lt _ (by unfold SIZE_MOD; omega)
          obtain ⟨h1, h2⟩ := ih (i + 1) _ r1 hM1 hrec
          refine ⟨?_, ?_⟩
          · show r1.total = _
            rw [h1]
            simp only [written, size_add]
            rw [Nat.mod_add_mod, Nat.add_assoc]
          · rcases h2 with ⟨hf, hall⟩ | ⟨hf, ws, n, w, hevs, hw, hall⟩
            · left
              refine ⟨hf, ?_⟩
              intro e he
              rcases List.mem_cons.1 he with h | h
              · exact ⟨_, _, h, by omega⟩
              · exact hall e h
            · right
              refine ⟨hf, Ev.write fd (min c (size_sub t total))
                (wr i (min c (size_sub t total))) :: ws, n, w, ?_, hw, ?_⟩
              · show _ :: r1.evs = _
                rw [hevs]; rfl
              · intro e he
                rcases List.mem_cons.1 he with h | h
                · exact ⟨_, _, h, by omega⟩
                · exact hall e h
    · simp only [hlt, if_false, Option.some.injEq] at h
      subst h
      refine ⟨?_, Or.inl ⟨rfl, by simp⟩⟩
      simp [written, Nat.mod_eq_of_lt hM]

/-- The return values of the reads of one run of the loop: positive values,
followed by the value on which the loop is left, which is `-1` exactly when the
loop is left on a read error. -/
theorem dl_loop_rets_shape (cap now : Nat) (reads : List ReadRes) :
    ∀ st, ∃ pre last, (dl_loop cap now st reads).rets = pre ++ [last] ∧
      (∀ x ∈ pre, 0 < x) ∧
      ((dl_loop cap now st reads).exit = DlExit.readError → last = -1) ∧
      ((dl_loop cap now st reads).exit ≠ DlExit.readError → 0 ≤ last) := by
  induction reads with
  | nil => intro st; rw [dl_loop_nil]; exact ⟨[], 0, rfl, by simp, by simp, by simp⟩
  | cons rd rest ih =>
    intro st
    cases rd with
    | err => rw [dl_loop_err]; exact ⟨[], -1, rfl, by simp, by simp, by simp⟩
    | data l =>
      cases l with
      | nil => rw [dl_loop_eof]; exact ⟨[], 0, rfl, by simp, by simp, by simp⟩
      | cons b bs =>
        have hpos : (0 : Int) < ((b :: bs).length : Int) := by simp
        cases hs : dl_step now st (b :: bs) with
        | none =>
          rw [dl_loop_ub _ _ _ _ _ _ hs]
          exact ⟨[], _, rfl, by simp, by simp, fun _ => by omega⟩
        | some st1 =>
          by_cases hc : 0 < cap ∧ cap ≤ st1.total
          · rw [dl_loop_cap cap now st st1 b bs rest hs hc]
            exact ⟨[], _, rfl, by simp, by simp, fun _ => by omega⟩
          · rw [dl_loop_more cap now st st1 b bs rest hs hc]
            obtain ⟨pre, last, h1, h2, h3, h4⟩ := ih st1
            refine ⟨((b :: bs).length : Int) :: pre, last, ?_, ?_, h3, h4⟩
            · show _ :: (dl_loop cap now st1 rest).rets = _
              rw [h1]; rfl
            · intro x hx
              rcases List.mem_cons.1 hx with h | h
              · rw [h]; exact hpos
              · exact h2 x h

/-- The final `total` of the loop is the last accumulated count, or the initial
value when no iteration reached the cap test. -/
theorem dl_loop_total (cap now : Nat) (reads : List ReadRes) :
    ∀ st, (dl_loop cap now st reads).st.total
      = (dl_loop cap now st reads).totals.getLast?.getD st.total := by
  induction reads with
  | nil => intro st; rw [dl_loop_nil]; rfl
  | cons rd rest ih =>
    intro st
    cases rd with
    | err => rw [dl_loop_err]; rfl
    | data l =>
      cases l with
      | nil => rw [dl_loop_eof]; rfl
      | cons b bs =>
        cases hs : dl_step now st (b :: bs) with
        | none => rw [dl_loop_ub _ _ _ _ _ _ hs]; rfl
        | some st1 =>
          by_cases hc : 0 < cap ∧ cap ≤ st1.total
          · rw [dl_loop_cap cap now st st1 b bs rest hs hc]; rfl
          · rw [dl_loop_more cap now st st1 b bs rest hs hc]
            show (dl_loop cap now st1 rest).st.total
              = (st1.total :: (dl_loop cap now st1 rest).totals).getLast?.getD st.total
            rw [ih st1, List.getLast?_cons]
            cases (dl_loop cap now st1 rest).totals.getLast? <;> rfl

/-! ## Runs that meet an I/O error -/

/-- A write that fails in `run_upload_test` is the last write of the run; the run
goes on to shut the socket down and to report the bytes accepted before it. -/
theorem upload_error_trace (t c : Nat) (ue : UlEnv) (fuel : Nat) (tr : List Ev)
    (fd : Int) (n : Nat) (w : Int)
    (hrun : run_upload_test t c ue fuel = some tr) (hmem : Ev.write fd n w ∈ tr)
    (hneg : w < 0) :
    ∃ pre, tr = pre ++ [Ev.write fd n w, Ev.logE Msg.ulWriteError, Ev.shutdown fd,
      Ev.report (written pre % SIZE_MOD) (u64_sub ue.end_us ue.start_us)
        (mbitps_of (written pre % SIZE_MOD) (u64_sub ue.end_us ue.start_us)),
      Ev.free, Ev.close fd] := by
  simp only [run_upload_test] at hrun
  by_cases hc : (connect_tcp ue.conn).1 < 0
  · rw [if_pos hc] at hrun
    simp only [Option.some.injEq] at hrun
    subst hrun
    simp [connect_tcp_no_write] at hmem
  · rw [if_neg hc] at hrun
    by_cases hm : ue.malloc_ok = false
    · rw [if_pos hm] at hrun
      simp only [Option.some.injEq] at hrun
      subst hrun
      simp [connect_tcp_no_write] at hmem
    · rw [if_neg hm] at hrun
      cases hloop : ul_loop (connect_tcp ue.conn).1 t c ue.wr fuel 0 0 with
      | none => rw [hloop] at hrun; simp at hrun
      | some r =>
        rw [hloop] at hrun
        simp only [Option.some.injEq] at hrun
        subst hrun
        obtain ⟨htot, hshape⟩ :=
          ul_loop_shape _ t c ue.wr fuel 0 0 r (by unfold SIZE_MOD; omega) hloop
        simp only [List.mem_append, List.mem_cons, List.mem_singleton, connect_tcp_no_write,
          false_or, reduceCtorEq, or_false, List.not_mem_nil] at hmem
        rcases hshape with ⟨_, hall⟩ | ⟨_, ws, n1, w1, hevs, hw1, hall⟩
        · obtain ⟨n2, w2, he, hw2⟩ := hall _ hmem
          injection he with _ _ h3
          omega
        · rw [hevs] at hmem htot ⊢
          simp only [List.mem_append, List.mem_cons, List.mem_singleton, reduceCtorEq,
            or_false, List.not_mem_nil] at hmem
          have hlast : Ev.write fd n w = Ev.write (connect_tcp ue.conn).1 n1 w1 := by
            rcases hmem with h | h
            · obtain ⟨n2, w2, he, hw2⟩ := hall _ h
              injection he with _ _ h3
              omega
            · exact h
          injection hlast with h1 h2 h3
          subst h1 h2 h3
          refine ⟨(connect_tcp ue.conn).2 ++ ws, ?_⟩
          have hz : w.toNat = 0 := by omega
          have hwr : written ((connect_tcp ue.conn).2 ++ ws) % SIZE_MOD = r.total := by
            rw [htot, written_append, written_append, connect_tcp_written]
            simp [written, hz]
          rw [hwr]
          simp

theorem dl_tail_no_read (fd0 : Int) (end_us : Nat) (r : DlLoop) (fd : Int) (k : Nat)
    (w : Int) : Ev.read fd k w ∉ dl_tail fd0 end_us r := by
  unfold dl_tail
  split
  · simp
  · split <;> split <;> simp

/-- A read that fails in `run_download_test` after the header boundary was found
is the last read of the run; the run goes on to report the bytes counted before
it. -/
theorem download_error_trace (cap c : Nat) (de : DlEnv) (fd : Int) (k : Nat) (w : Int)
    (hmem : Ev.read fd k w ∈ run_download_test cap c de) (hneg : w < 0)
    (hdone : (dl_loop cap de.start_us (dl_init de.buf0) de.reads).st.header_done = true) :
    ∃ pre, run_download_test cap c de = pre ++ [Ev.read fd k w, Ev.logE Msg.dlReadError,
      Ev.report (dl_loop cap de.start_us (dl_init de.buf0) de.reads).st.total
        (u64_sub de.end_us (dl_loop cap de.start_us (dl_init de.buf0) de.reads).st.start_us)
        (mbitps_of (dl_loop cap de.start_us (dl_init de.buf0) de.reads).st.total
          (u64_sub de.end_us (dl_loop cap de.start_us (dl_init de.buf0) de.reads).st.start_us)),
      Ev.free, Ev.close fd] := by
  simp only [run_download_test] at hmem ⊢
  by_cases hc : (connect_tcp de.conn).1 < 0
  · rw [if_pos hc] at hmem
    simp [connect_tcp_no_read] at hmem
  · rw [if_neg hc] at hmem ⊢
    by_cases hq : de.req_ret ≠ (de.req_len : Int)
    · rw [if_pos hq] at hmem
      simp [connect_tcp_no_read] at hmem
    · rw [if_neg hq] at hmem ⊢
      by_cases hm : de.malloc_ok = false
      · rw [if_pos hm] at hmem
        simp [connect_tcp_no_read] at hmem
      · rw [if_neg hm] at hmem ⊢
        obtain ⟨pre, last, hrets, hpre, herr, hnerr⟩ :=
          dl_loop_rets_shape cap de.start_us de.reads (dl_init de.buf0)
        simp only [List.mem_append, List.mem_cons, List.mem_singleton, connect_tcp_no_read,
          false_or, reduceCtorEq, or_false, List.not_mem_nil, dl_tail_no_read, read_evs,
          List.mem_map, Ev.read.injEq] at hmem
        obtain ⟨x, hx, hfd, hk, hxw⟩ := hmem
        subst hfd hk hxw
        rw [hrets] at hx
        have hxl : x = last := by
          rcases List.mem_append.1 hx with h | h
          · have := hpre x h; omega
          · simpa using h
        have hexit : (dl_loop cap de.start_us (dl_init de.buf0) de.reads).exit
            = DlExit.readError := by
          by_contra hne
          have := hnerr hne
          omega
        have hlast : last = -1 := herr hexit
        subst hxl
        refine ⟨(connect_tcp de.conn).2 ++ [Ev.write (connect_tcp de.conn).1 de.req_len de.req_ret]
          ++ read_evs (connect_tcp de.conn).1 c pre, ?_⟩
        rw [hrets]
        simp [read_evs, dl_tail, hexit, hdone]

/-- C6 (as amended). When a write of `run_upload_test` returns a negative value, it
is the last write: the run logs the error, shuts the socket down, reports the
bytes accepted by the earlier writes with the elapsed time and rate, frees the
buffer and closes the socket.  When a read of `run_download_test` returns a
negative value after the header boundary was found, it is the last read: the run
logs the error, reports the body bytes counted so far with the elapsed time and
rate, frees the buffer and closes the socket. -/
theorem io_error_ends_loop_and_reports :
    (∀ (t c : Nat) (ue : UlEnv) (fuel : Nat) (tr : List Ev) (fd : Int) (n : Nat) (w : Int),
      run_upload_test t c ue fuel = some tr → Ev.write fd n w ∈ tr → w < 0 →
      ∃ pre, tr = pre ++ [Ev.write fd n w, Ev.logE Msg.ulWriteError, Ev.shutdown fd,
        Ev.report (written pre % SIZE_MOD) (u64_sub ue.end_us ue.start_us)
          (mbitps_of (written pre % SIZE_MOD) (u64_sub ue.end_us ue.start_us)),
        Ev.free, Ev.close fd]) ∧
    (∀ (cap c : Nat) (de : DlEnv) (fd : Int) (k : Nat) (w : Int),
      Ev.read fd k w ∈ run_download_test cap c de → w < 0 →
      (dl_loop cap de.start_us (dl_init de.buf0) de.reads).st.header_done = true →
      ∃ pre, run_download_test cap c de = pre ++ [Ev.read fd k w, Ev.logE Msg.dlReadError,
        Ev.report (dl_loop cap de.start_us (dl_init de.buf0) de.reads).st.total
          (u64_sub de.end_us (dl_loop cap de.start_us (dl_init de.buf0) de.reads).st.start_us)
          (mbitps_of (dl_loop cap de.start_us (dl_init de.buf0) de.reads).st.total
            (u64_sub de.end_us
              (dl_loop cap de.start_us (dl_init de.buf0) de.reads).st.start_us)),
        Ev.free, Ev.close fd]) :=
  ⟨upload_error_trace, download_error_trace⟩

/-! ## Release of the socket -/

theorem closed_once_last_snoc (fd : Int) (l : List Ev) (h : Ev.close fd ∉ l) :
    closed_once_last fd (l ++ [Ev.close fd]) := by
  have hf : List.filter (is_sock_op fd) [Ev.close fd] = [Ev.close fd] := by
    simp [is_sock_op]
  have hc : List.count (Ev.close fd) (List.filter (is_sock_op fd) l) = 0 := by
    apply List.count_eq_zero.2
    intro hm
    exact h (List.mem_filter.1 hm).1
  unfold closed_once_last sock_ops
  rw [List.filter_append, hf]
  refine ⟨List.getLast?_concat _, ?_⟩
  rw [List.count_append, hc]
  simp

theorem no_socket_close_append {a b : List Ev} (ha : no_socket_close a)
    (hb : no_socket_close b) : no_socket_close (a ++ b) := by
  intro e he
  rcases List.mem_append.1 he with h | h
  · exact ha e h
  · exact hb e h

/-- A run that creates and connects the socket `s`, then performs events that
neither create nor close a socket, then closes `s`, closes every socket it created
exactly once, as the last operation on it. -/
theorem closed_of_parts (s : Int) (mid : List Ev) (hmid : no_socket_close mid) (fd : Int)
    (hfd : Ev.socket fd ∈ [Ev.socket s, Ev.connect s] ++ mid ++ [Ev.close s]) :
    closed_once_last fd ([Ev.socket s, Ev.connect s] ++ mid ++ [Ev.close s]) := by
  have hs : fd = s := by
    simp only [List.mem_append, List.mem_cons, List.mem_singleton, Ev.socket.injEq,
      reduceCtorEq, or_false, List.not_mem_nil] at hfd
    rcases hfd with h | h
    · exact h
    · have := hmid _ h
      simp [creates_or_closes] at this
  subst hs
  apply closed_once_last_snoc
  intro hm
  simp only [List.mem_append, List.mem_cons, List.mem_singleton, reduceCtorEq, false_or,
    List.not_mem_nil, or_false] at hm
  have := hmid _ hm
  simp [creates_or_closes] at this

/-- The failure paths of `connect_tcp` inside a run: a socket that was created is
closed by `connect_tcp` itself, and the caller only logs. -/
theorem closed_of_connect_failure (e : ConnEnv) (m : Msg) (hneg : (connect_tcp e).1 < 0)
    (fd : Int) (hfd0 : 0 ≤ fd) (hfd : Ev.socket fd ∈ (connect_tcp e).2 ++ [Ev.logE m]) :
    closed_once_last fd ((connect_tcp e).2 ++ [Ev.logE m]) := by
  rcases connect_tcp_shape e with ⟨h0, _, _⟩ | ⟨_, h | ⟨h, hs⟩ | ⟨h, _⟩⟩
  · omega
  · rw [h] at hfd; simp at hfd
  · rw [h] at hfd
    simp at hfd
    omega
  · rw [h] at hfd ⊢
    simp only [List.cons_append, List.nil_append, List.mem_cons, Ev.socket.injEq,
      reduceCtorEq, false_or, List.not_mem_nil, or_false] at hfd
    subst hfd
    simp [closed_once_last, sock_ops, is_sock_op]

theorem ul_loop_no_socket_close (fd : Int) (t c : Nat) (wr : Nat → Nat → Int)
    (fuel : Nat) (r : UlLoop) (h : ul_loop fd t c wr fuel 0 0 = some r) :
    no_socket_close r.evs := by
  obtain ⟨_, hshape⟩ := ul_loop_shape fd t c wr fuel 0 0 r (by unfold SIZE_MOD; omega) h
  intro e he
  rcases hshape with ⟨_, hall⟩ | ⟨_, ws, n, w, hevs, _, hall⟩
  · obtain ⟨n1, w1, h1, _⟩ := hall e he
    rw [h1]; rfl
  · rw [hevs] at he
    simp only [List.mem_append, List.mem_cons, List.mem_singleton, List.not_mem_nil,
      or_false] at he
    rcases he with h1 | h1 | h1
    · obtain ⟨n1, w1, h2, _⟩ := hall e h1
      rw [h2]; rfl
    · rw [h1]; rfl
    · rw [h1]; rfl

theorem read_evs_no_socket_close (fd : Int) (c : Nat) (rets : List Int) :
    no_socket_close (read_evs fd c rets) := by
  intro e he
  simp only [read_evs, List.mem_map] at he
  obtain ⟨x, _, hx⟩ := he
  rw [← hx]; rfl

theorem connect_tcp_success (e : ConnEnv) (h : ¬ (connect_tcp e).1 < 0) :
    (connect_tcp e).1 = e.sock ∧ (connect_tcp e).2 = [Ev.socket e.sock, Ev.connect e.sock] := by
  rcases connect_tcp_shape e with ⟨_, h1, h2⟩ | ⟨h1, _⟩
  · exact ⟨h1, h2⟩
  · omega

theorem upload_closed (t c : Nat) (ue : UlEnv) (fuel : Nat) (tr : List Ev)
    (hrun : run_upload_test t c ue fuel = some tr) (fd : Int) (h0 : 0 ≤ fd)
    (hfd : Ev.socket fd ∈ tr) : closed_once_last fd tr := by
  simp only [run_upload_test] at hrun
  by_cases hc : (connect_tcp ue.conn).1 < 0
  · rw [if_pos hc] at hrun
    simp only [Option.some.injEq] at hrun
    subst hrun
    exact closed_of_connect_failure _ _ hc fd h0 hfd
  · rw [if_neg hc] at hrun
    obtain ⟨h1, h2⟩ := connect_tcp_success _ hc
    by_cases hm : ue.malloc_ok = false
    · rw [if_pos hm, h1, h2] at hrun
      simp only [Option.some.injEq] at hrun
      subst hrun
      exact closed_of_parts ue.conn.sock [Ev.logE Msg.ulOom] (by intro e he; simp at he; rw [he]; rfl)
        fd hfd
    · rw [if_neg hm] at hrun
      cases hloop : ul_loop (connect_tcp ue.conn).1 t c ue.wr fuel 0 0 with
      | none => rw [hloop] at hrun; simp at hrun
      | some r =>
        rw [hloop] at hrun
        simp only [Option.some.injEq] at hrun
        have hr := ul_loop_no_socket_close _ t c ue.wr fuel r hloop
        rw [h1, h2] at hrun
        have htr : tr = [Ev.socket ue.conn.sock, Ev.connect ue.conn.sock] ++
            (r.evs ++ [Ev.shutdown ue.conn.sock,
              Ev.report r.total (u64_sub ue.end_us ue.start_us)
                (mbitps_of r.total (u64_sub ue.end_us ue.start_us)), Ev.free]) ++
            [Ev.close ue.conn.sock] := by
          rw [← hrun]; simp
        rw [htr] at hfd ⊢
        refine closed_of_parts ue.conn.sock _ (no_socket_close_append hr ?_) fd hfd
        intro e he
        simp only [List.mem_cons, List.mem_singleton, List.not_mem_nil, or_false] at he
        rcases he with h | h | h <;> rw [h] <;> rfl

theorem upload_v0_closed (t c : Nat) (ue : UlEnv) (tmp_ret : Int) (fuel : Nat) (tr : List Ev)
    (hrun : run_upload_test_v0 t c ue tmp_ret fuel = some tr) (fd : Int) (h0 : 0 ≤ fd)
    (hfd : Ev.socket fd ∈ tr) : closed_once_last fd tr := by
  simp only [run_upload_test_v0] at hrun
  by_cases hc : (connect_tcp ue.conn).1 < 0
  · rw [if_pos hc] at hrun
    simp only [Option.some.injEq] at hrun
    subst hrun
    exact closed_of_connect_failure _ _ hc fd h0 hfd
  · rw [if_neg hc] at hrun
    obtain ⟨h1, h2⟩ := connect_tcp_success _ hc
    by_cases hm : ue.malloc_ok = false
    · rw [if_pos hm, h1, h2] at hrun
      simp only [Option.some.injEq] at hrun
      subst hrun
      exact closed_of_parts ue.conn.sock [Ev.logE Msg.ulOom] (by intro e he; simp at he; rw [he]; rfl)
        fd hfd
    · rw [if_neg hm] at hrun
      cases hloop : ul_loop (connect_tcp ue.conn).1 t c ue.wr fuel 0 0 with
      | none => rw [hloop] at hrun; simp at hrun
      | some r =>
        rw [hloop] at hrun
        simp only [Option.some.injEq] at hrun
        have hr := ul_loop_no_socket_close _ t c ue.wr fuel r hloop
        rw [h1, h2] at hrun
        have htr : tr = [Ev.socket ue.conn.sock, Ev.connect ue.conn.sock] ++
            (r.evs ++ [Ev.read ue.conn.sock 64 tmp_ret,
              Ev.report r.total (u64_sub ue.end_us ue.start_us)
                (mbitps_of r.total (u64_sub ue.end_us ue.start_us)), Ev.free]) ++
            [Ev.close ue.conn.sock] := by
          rw [← hrun]; simp
        rw [htr] at hfd ⊢
        refine closed_of_parts ue.conn.sock _ (no_socket_close_append hr ?_) fd hfd
        intro e he
        simp only [List.mem_cons, List.mem_singleton, List.not_mem_nil, or_false] at he
        rcases he with h | h | h <;> rw [h] <;> rfl

/-- What follows the loop of `run_download_test` when `strstr` stayed inside the
buffer: log messages, then `free` and `close`. -/
theorem dl_tail_defined (fd : Int) (end_us : Nat) (r : DlLoop)
    (h : r.exit ≠ DlExit.undefinedBehaviour) :
    ∃ logs, dl_tail fd end_us r = logs ++ [Ev.free, Ev.close fd] ∧ no_socket_close logs := by
  unfold dl_tail
  rw [if_neg h]
  refine ⟨_, rfl, ?_⟩
  intro e he
  split at he <;> split at he <;> simp at he
  · rcases he with h | h <;> rw [h] <;> rfl
  · rcases he with h | h <;> rw [h] <;> rfl
  · rw [he]; rfl
  · rw [he]; rfl

theorem download_closed (cap c : Nat) (de : DlEnv)
    (hub : Ev.undefinedBehaviour ∉ run_download_test cap c de) (fd : Int) (h0 : 0 ≤ fd)
    (hfd : Ev.socket fd ∈ run_download_test cap c de) :
    closed_once_last fd (run_download_test cap c de) := by
  simp only [run_download_test] at hub hfd ⊢
  by_cases hc : (connect_tcp de.conn).1 < 0
  · rw [if_pos hc] at hfd ⊢
    exact closed_of_connect_failure _ _ hc fd h0 hfd
  · rw [if_neg hc] at hub hfd ⊢
    obtain ⟨h1, h2⟩ := connect_tcp_success _ hc
    rw [h1, h2] at hub hfd ⊢
    by_cases hq : de.req_ret ≠ (de.req_len : Int)
    · rw [if_pos hq] at hfd ⊢
      exact closed_of_parts de.conn.sock
        [Ev.write de.conn.sock de.req_len de.req_ret, Ev.logE Msg.dlWriteRequestFail]
        (by intro e he; simp at he; rcases he with h | h <;> rw [h] <;> rfl) fd hfd
    · rw [if_neg hq] at hub hfd ⊢
      by_cases hm : de.malloc_ok = false
      · rw [if_pos hm] at hfd ⊢
        exact closed_of_parts de.conn.sock
          [Ev.write de.conn.sock de.req_len de.req_ret, Ev.logE Msg.dlOom]
          (by intro e he; simp at he; rcases he with h | h <;> rw [h] <;> rfl) fd hfd
      · rw [if_neg hm] at hub hfd ⊢
        have hexit : (dl_loop cap de.start_us (dl_init de.buf0) de.reads).exit
            ≠ DlExit.undefinedBehaviour := by
          intro hex
          apply hub
          simp [dl_tail, hex]
        obtain ⟨logs, htail, hlogs⟩ := dl_tail_defined de.conn.sock de.end_us _ hexit
        rw [htail] at hfd ⊢
        have hmid : no_socket_close
            ([Ev.write de.conn.sock de.req_len de.req_ret] ++
              read_evs de.conn.sock c (dl_loop cap de.start_us (dl_init de.buf0) de.reads).rets
              ++ logs ++ [Ev.free]) := by
          refine no_socket_close_append (no_socket_close_append (no_socket_close_append ?_
            (read_evs_no_socket_close _ _ _)) hlogs) ?_
          · intro e he; simp at he; rw [he]; rfl
          · intro e he; simp at he; rw [he]; rfl
        have hrw : ∀ (a b x y : List Ev) (z w : Ev),
            a ++ b ++ x ++ (y ++ [z, w]) = a ++ (b ++ x ++ y ++ [z]) ++ [w] := by
          intros; simp
        rw [hrw] at hfd ⊢
        exact closed_of_parts de.conn.sock _ hmid fd hfd

/-- The send loop is left within `ul_total - total + 1` iterations when every
write either fails or accepts between 1 and the requested number of bytes. -/
theorem ul_loop_terminates (fd : Int) (t c : Nat) (wr : Nat → Nat → Int)
    (ht : t < SIZE_MOD) (hc : 1 ≤ c)
    (hw : ∀ i n, 1 ≤ n → wr i n < 0 ∨ (1 ≤ wr i n ∧ wr i n ≤ (n : Int))) :
    ∀ fuel i total, total ≤ t → t - total < fuel →
      (ul_loop fd t c wr fuel i total).isSome = true := by
  intro fuel
  induction fuel with
  | zero => intro i total _ h; omega
  | succ fuel ih =>
    intro i total hle hfuel
    unfold ul_loop
    by_cases hlt : total < t
    · have hsub : size_sub t total = t - total := size_sub_of_le hle ht
      have hchunk : 1 ≤ min c (t - total) := le_min hc (by omega)
      simp only [hlt, if_true, hsub]
      by_cases hneg : wr i (min c (t - total)) < 0
      · simp [hneg]
      · rcases hw i (min c (t - total)) hchunk with h | ⟨hw1, hw2⟩
        · exact absurd h hneg
        · have hle2 : (wr i (min c (t - total))).toNat ≤ t - total := by
            have := min_le_right c (t - total)
            omega
          have h1 : 1 ≤ (wr i (min c (t - total))).toNat := by omega
          have hadd : size_add total (wr i (min c (t - total))).toNat
              = total + (wr i (min c (t - total))).toNat := size_add_of_lt (by omega)
          simp only [hneg, if_false, hadd]
          have := ih (i + 1) (total + (wr i (min c (t - total))).toNat) (by omega) (by omega)
          cases hrec : ul_loop fd t c wr fuel (i + 1)
              (total + (wr i (min c (t - total))).toNat) with
          | none => rw [hrec] at this; simp at this
          | some r => rfl
    · simp [hlt]

theorem upload_terminates (t c : Nat) (ue : UlEnv) (fuel : Nat) (ht : t < SIZE_MOD)
    (hc : 1 ≤ c)
    (hw : ∀ i n, 1 ≤ n → ue.wr i n < 0 ∨ (1 ≤ ue.wr i n ∧ ue.wr i n ≤ (n : Int)))
    (hfuel : t < fuel) : (run_upload_test t c ue fuel).isSome = true := by
  simp only [run_upload_test]
  have h := ul_loop_terminates (connect_tcp ue.conn).1 t c ue.wr ht hc hw fuel 0 0
    (Nat.zero_le _) (by omega)
  split
  · rfl
  · split
    · rfl
    · cases hloop : ul_loop (connect_tcp ue.conn).1 t c ue.wr fuel 0 0 with
      | none => rw [hloop] at h; simp at h
      | some r => rfl

/-- C9. Stream release on every path.  `connect_tcp` returns either a descriptor
`≥ 0`, having created and connected that socket and nothing else, or `-1`, and in
the latter case a socket it created is closed by `connect_tcp` itself, exactly
once and as the last operation on it.  In every completed run of
`run_upload_test` (either source file) and in every run of `run_download_test` in
which `strstr` stays inside the buffer, every socket that was created is closed
exactly once and the `close` is the last operation on it.  A run of
`run_upload_test` completes when every write fails or accepts between 1 and the
requested number of bytes; a run of `run_download_test` always completes once a
read returns 0 or a negative value. -/
theorem socket_closed_once_last :
    (∀ e : ConnEnv,
      ((connect_tcp e).1 < 0 → (connect_tcp e).1 = -1 ∧
        ∀ fd, 0 ≤ fd → Ev.socket fd ∈ (connect_tcp e).2 →
          closed_once_last fd (connect_tcp e).2) ∧
      (0 ≤ (connect_tcp e).1 →
        (connect_tcp e).2 = [Ev.socket (connect_tcp e).1, Ev.connect (connect_tcp e).1])) ∧
    (∀ (t c : Nat) (ue : UlEnv) (fuel : Nat) (tr : List Ev),
      run_upload_test t c ue fuel = some tr →
      ∀ fd, 0 ≤ fd → Ev.socket fd ∈ tr → closed_once_last fd tr) ∧
    (∀ (t c : Nat) (ue : UlEnv) (tmp_ret : Int) (fuel : Nat) (tr : List Ev),
      run_upload_test_v0 t c ue tmp_ret fuel = some tr →
      ∀ fd, 0 ≤ fd → Ev.socket fd ∈ tr → closed_once_last fd tr) ∧
    (∀ (t c : Nat) (ue : UlEnv) (fuel : Nat), t < SIZE_MOD → 1 ≤ c →
      (∀ i n, 1 ≤ n → ue.wr i n < 0 ∨ (1 ≤ ue.wr i n ∧ ue.wr i n ≤ (n : Int))) →
      t < fuel → (run_upload_test t c ue fuel).isSome = true) ∧
    (∀ (cap c : Nat) (de : DlEnv), Ev.undefinedBehaviour ∉ run_download_test cap c de →
      ∀ fd, 0 ≤ fd → Ev.socket fd ∈ run_download_test cap c de →
        closed_once_last fd (run_download_test cap c de)) := by
  refine ⟨?_, upload_closed, upload_v0_closed, upload_terminates, download_closed⟩
  intro e
  rcases connect_tcp_shape e with ⟨h0, h1, h2⟩ | ⟨h1, h | ⟨h, hs⟩ | ⟨h, _⟩⟩
  · refine ⟨fun hneg => by omega, fun _ => ?_⟩
    rw [h2, h1]
  · refine ⟨fun _ => ⟨h1, ?_⟩, fun h0 => by omega⟩
    intro fd _ hfd
    rw [h] at hfd; simp at hfd
  · refine ⟨fun _ => ⟨h1, ?_⟩, fun h0 => by omega⟩
    intro fd hfd0 hfd
    rw [h] at hfd
    simp at hfd
    omega
  · refine ⟨fun _ => ⟨h1, ?_⟩, fun h0 => by omega⟩
    intro fd _ hfd
    rw [h] at hfd ⊢
    simp only [List.mem_cons, Ev.socket.injEq, reduceCtorEq, false_or, List.not_mem_nil,
      or_false] at hfd
    subst hfd
    simp [closed_once_last, sock_ops, is_sock_op]

/-! ## Rounding to binary64 -/

/-- Rounding to an integer moves a value by at most one half. -/
theorem round_half_even_near (m : ℚ) :
    m - 1 / 2 ≤ (round_half_even m : ℚ) ∧ (round_half_even m : ℚ) ≤ m + 1 / 2 := by
  have h1 : (⌊m⌋ : ℚ) ≤ m := Int.floor_le m
  have h2 : m < (⌊m⌋ : ℚ) + 1 := Int.lt_floor_add_one m
  unfold round_half_even
  split_ifs <;> push_cast <;> constructor <;> linarith

/-- In the normal range of binary64 rounding gives a finite value with a relative
error of at most `DBL_EPS`. -/
theorem rnd_normal (q : ℚ) (h0 : 1 / (2 : ℚ) ^ (1022 : ℕ) ≤ q) (h2 : q < (2 : ℚ) ^ (1023 : ℕ)) :
    ∃ r, rnd q = FVal.fin r ∧ q * (1 - DBL_EPS) ≤ r ∧ r ≤ q * (1 + DBL_EPS) := by
  have h1 : (2 : ℚ) ^ (-1022 : ℤ) ≤ q := by
    have : (2 : ℚ) ^ (-1022 : ℤ) = 1 / (2 : ℚ) ^ (1022 : ℕ) := by
      rw [zpow_neg, one_div]; norm_cast
    rw [this]; exact h0
  have hq : 0 < q := lt_of_lt_of_le (zpow_pos (by norm_num) _) h1
  have hlog : (-1022 : ℤ) ≤ Int.log 2 q :=
    (Int.zpow_le_iff_le_log (by norm_num) hq).1 (by simpa using h1)
  have hb : binade q = Int.log 2 q := max_eq_left hlog
  have hpow : (2 : ℚ) ^ (Int.log 2 q) ≤ q := by
    simpa using Int.zpow_log_le_self (b := 2) (r := q) (by norm_num) hq
  have hu : ulp q = (2 : ℚ) ^ (Int.log 2 q) / 2 ^ (52 : ℕ) := by
    unfold ulp
    rw [hb, zpow_sub₀ (by norm_num : (2 : ℚ) ≠ 0)]
    norm_cast
  have hp0 : (0 : ℚ) < (2 : ℚ) ^ (Int.log 2 q) := zpow_pos (by norm_num) _
  have hu0 : 0 < ulp q := by rw [hu]; positivity
  have hule : ulp q ≤ q / 2 ^ (52 : ℕ) := by
    rw [hu]; exact div_le_div_of_nonneg_right hpow (by positivity)
  obtain ⟨hn1, hn2⟩ := round_half_even_near (q / ulp q)
  have hmul : q / ulp q * ulp q = q := div_mul_cancel₀ q hu0.ne'
  have hr1 : q - ulp q / 2 ≤ (round_half_even (q / ulp q) : ℚ) * ulp q := by
    have := mul_le_mul_of_nonneg_right hn1 hu0.le
    rw [sub_mul, hmul] at this
    linarith
  have hr2 : (round_half_even (q / ulp q) : ℚ) * ulp q ≤ q + ulp q / 2 := by
    have := mul_le_mul_of_nonneg_right hn2 hu0.le
    rw [add_mul, hmul] at this
    linarith
  have he : ulp q / 2 ≤ q * DBL_EPS := by
    unfold DBL_EPS
    have : q / 2 ^ (52 : ℕ) / 2 = q * (1 / 2 ^ 53) := by ring
    linarith
  have hlt : ¬ (2 : ℚ) ^ (1024 : ℕ) ≤ (round_half_even (q / ulp q) : ℚ) * ulp q := by
    have h3 : q * DBL_EPS ≤ q := by
      unfold DBL_EPS
      have : (1 : ℚ) / 2 ^ 53 ≤ 1 := by norm_num
      nlinarith
    have h4 : (2 : ℚ) ^ (1024 : ℕ) = 2 * 2 ^ (1023 : ℕ) := by norm_num
    rw [h4]
    linarith
  refine ⟨(round_half_even (q / ulp q) : ℚ) * ulp q, ?_, ?_, ?_⟩
  · unfold rnd
    rw [if_neg hq.ne', if_neg hlt]
  · linarith
  · linarith

theorem eps_pow_bounds (k : ℕ) (hk : k ≤ 8) :
    0 < (1 - DBL_EPS) ^ k ∧ 1 / 2 ≤ (1 - DBL_EPS) ^ k ∧ (1 - DBL_EPS) ^ k ≤ 1 ∧
      1 ≤ (1 + DBL_EPS) ^ k ∧ (1 + DBL_EPS) ^ k ≤ 2 := by
  have h0 : (0 : ℚ) < 1 - DBL_EPS := by norm_num [DBL_EPS]
  have h1 : (1 : ℚ) - DBL_EPS ≤ 1 := by norm_num [DBL_EPS]
  have h2 : (1 : ℚ) ≤ 1 + DBL_EPS := by norm_num [DBL_EPS]
  have h3 : (1 : ℚ) / 2 ≤ (1 - DBL_EPS) ^ 8 := by norm_num [DBL_EPS]
  have h4 : ((1 : ℚ) + DBL_EPS) ^ 8 ≤ 2 := by norm_num [DBL_EPS]
  refine ⟨pow_pos h0 k, ?_, pow_le_one₀ h0.le h1, one_le_pow₀ h2, ?_⟩
  · exact le_trans h3 (pow_le_pow_of_le_one h0.le h1 hk)
  · exact le_trans (pow_le_pow_right₀ h2 hk) h4

theorem near_zero (a : ℚ) : near 0 a a := by
  unfold near; simp

theorem near_mul (k : ℕ) (a v c : ℚ) (hc : 0 ≤ c) (h : near k a v) :
    near k (a * c) (v * c) := by
  obtain ⟨h1, h2⟩ := h
  constructor
  · have := mul_le_mul_of_nonneg_right h1 hc
    linarith [this]
  · have := mul_le_mul_of_nonneg_right h2 hc
    linarith [this]

theorem near_crude (k : ℕ) (a v : ℚ) (hk : k ≤ 8) (ha : 0 ≤ a) (h : near k a v) :
    a / 2 ≤ v ∧ v ≤ a * 2 := by
  obtain ⟨h1, h2⟩ := h
  obtain ⟨_, b1, _, _, b2⟩ := eps_pow_bounds k hk
  have c1 := mul_le_mul_of_nonneg_left b1 ha
  have c2 := mul_le_mul_of_nonneg_left b2 ha
  constructor <;> linarith

theorem near_rnd (k : ℕ) (a v : ℚ) (hk : k ≤ 7) (ha1 : 1 / (2 : ℚ) ^ (100 : ℕ) ≤ a)
    (ha2 : a ≤ (2 : ℚ) ^ (100 : ℕ)) (h : near k a v) :
    ∃ r, rnd v = FVal.fin r ∧ near (k + 1) a r := by
  obtain ⟨h1, h2⟩ := h
  obtain ⟨b0, b1, _, _, b2⟩ := eps_pow_bounds k (by omega)
  have ha0 : 0 < a := lt_of_lt_of_le (by positivity) ha1
  obtain ⟨hv1, hv2⟩ := near_crude k a v (by omega) ha0.le ⟨h1, h2⟩
  have hlo : 1 / (2 : ℚ) ^ (1022 : ℕ) ≤ v := by
    have : 1 / (2 : ℚ) ^ (1022 : ℕ) ≤ 1 / (2 : ℚ) ^ (100 : ℕ) / 2 := by norm_num
    linarith
  have hhi : v < (2 : ℚ) ^ (1023 : ℕ) := by
    have : (2 : ℚ) ^ (100 : ℕ) * 2 < (2 : ℚ) ^ (1023 : ℕ) := by norm_num
    linarith
  obtain ⟨r, hr, hr1, hr2⟩ := rnd_normal v hlo hhi
  have e0 : (0 : ℚ) ≤ 1 - DBL_EPS := by norm_num [DBL_EPS]
  have e1 : (0 : ℚ) ≤ 1 + DBL_EPS := by norm_num [DBL_EPS]
  refine ⟨r, hr, ?_, ?_⟩
  · rw [pow_succ, ← mul_assoc]
    exact le_trans (mul_le_mul_of_nonneg_right h1 e0) hr1
  · rw [pow_succ, ← mul_assoc]
    exact le_trans hr2 (mul_le_mul_of_nonneg_right h2 e1)

theorem rnd_zero : rnd 0 = FVal.fin 0 := by
  unfold rnd; simp

/-- The divisor `secs * 1000.0 * 1000.0` for a positive elapsed time. -/
theorem divisor_pos (e : Nat) (he0 : 0 < e) (he1 : e < U64_MOD) :
    ∃ d, fmul (fmul (secs_of e) (FVal.fin 1000)) (FVal.fin 1000) = FVal.fin d ∧
      near 4 (e : ℚ) d := by
  have h1 : (1 : ℚ) ≤ (e : ℚ) := by exact_mod_cast he0
  have h2 : (e : ℚ) ≤ (2 : ℚ) ^ (64 : ℕ) := by
    have : e ≤ 2 ^ 64 := by unfold U64_MOD at he1; omega
    exact_mod_cast this
  have p100 : (2 : ℚ) ^ (64 : ℕ) ≤ (2 : ℚ) ^ (100 : ℕ) := by norm_num
  have q100 : 1 / (2 : ℚ) ^ (100 : ℕ) ≤ 1 / 1000000 := by norm_num
  obtain ⟨c1, hc1, n1⟩ := near_rnd 0 (e : ℚ) (e : ℚ) (by omega)
    (le_trans (by norm_num) h1) (le_trans h2 p100) (near_zero _)
  have hs : secs_of e = rnd (c1 / 1000000) := by
    unfold secs_of conv
    rw [hc1]
    simp [fdiv]
  have n1' : near 1 ((e : ℚ) / 1000000) (c1 / 1000000) := by
    have := near_mul 1 (e : ℚ) c1 (1 / 1000000) (by norm_num) n1
    simpa [div_eq_mul_inv] using this
  have r1 : 1 / (2 : ℚ) ^ (100 : ℕ) ≤ (e : ℚ) / 1000000 := by
    have : (1 : ℚ) / 1000000 ≤ (e : ℚ) / 1000000 :=
      div_le_div_of_nonneg_right h1 (by norm_num)
    linarith
  have r2 : (e : ℚ) / 1000000 ≤ (2 : ℚ) ^ (100 : ℕ) := by
    have : (e : ℚ) / 1000000 ≤ (e : ℚ) := by
      rw [div_le_iff₀ (by norm_num)]; nlinarith
    linarith
  obtain ⟨s, hs1, n2⟩ := near_rnd 1 _ _ (by omega) r1 r2 n1'
  have n2' := near_mul 2 _ s 1000 (by norm_num) n2
  have r3 : 1 / (2 : ℚ) ^ (100 : ℕ) ≤ (e : ℚ) / 1000000 * 1000 := by nlinarith
  have r4 : (e : ℚ) / 1000000 * 1000 ≤ (2 : ℚ) ^ (100 : ℕ) := by
    have : (e : ℚ) / 1000000 * 1000 ≤ (e : ℚ) := by
      rw [div_mul_eq_mul_div, div_le_iff₀ (by norm_num)]; nlinarith
    linarith
  obtain ⟨m, hm, n3⟩ := near_rnd 2 _ _ (by omega) r3 r4 n2'
  have n3' := near_mul 3 _ m 1000 (by norm_num) n3
  have hx : (e : ℚ) / 1000000 * 1000 * 1000 = (e : ℚ) := by ring
  rw [hx] at n3'
  obtain ⟨d, hd, n4⟩ := near_rnd 3 _ _ (by omega)
    (le_trans (by norm_num) h1) (le_trans h2 p100) n3'
  refine ⟨d, ?_, n4⟩
  rw [hs, hs1]
  simp only [fmul]
  rw [hm]
  simp only [fmul]
  exact hd

/-- The numerator `total * 8.0` for a positive byte count. -/
theorem numerator_pos (b : Nat) (hb0 : 0 < b) (hb1 : b < SIZE_MOD) :
    ∃ n, fmul (conv b) (FVal.fin 8) = FVal.fin n ∧ near 2 ((b : ℚ) * 8) n := by
  have h1 : (1 : ℚ) ≤ (b : ℚ) := by exact_mod_cast hb0
  have h2 : (b : ℚ) ≤ (2 : ℚ) ^ (32 : ℕ) := by
    have : b ≤ 2 ^ 32 := by unfold SIZE_MOD at hb1; omega
    exact_mod_cast this
  obtain ⟨c1, hc1, n1⟩ := near_rnd 0 (b : ℚ) (b : ℚ) (by omega)
    (le_trans (by norm_num) h1) (le_trans h2 (by norm_num)) (near_zero _)
  have n1' := near_mul 1 _ c1 8 (by norm_num) n1
  obtain ⟨n, hn, n2⟩ := near_rnd 1 _ _ (by omega)
    (by nlinarith [show (1 : ℚ) / 2 ^ (100 : ℕ) ≤ 1 by norm_num])
    (by nlinarith [show (2 : ℚ) ^ (32 : ℕ) * 8 ≤ 2 ^ (100 : ℕ) by norm_num]) n1'
  refine ⟨n, ?_, n2⟩
  unfold conv
  rw [hc1]
  simp only [fmul]
  exact hn

theorem numerator_zero : fmul (conv 0) (FVal.fin 8) = FVal.fin 0 := by
  simp [conv, fmul, rnd_zero]

theorem divisor_zero :
    fmul (fmul (secs_of 0) (FVal.fin 1000)) (FVal.fin 1000) = FVal.fin 0 := by
  simp [secs_of, conv, fdiv, fmul, rnd_zero]

/-- With no elapsed time the division is by zero: `0.0 / 0.0` is NaN and a positive
count divided by `0.0` is +Inf. -/
theorem mbitps_of_zero_elapsed (b : Nat) (hb1 : b < SIZE_MOD) :
    mbitps_of b 0 = if b = 0 then FVal.nan else FVal.inf := by
  unfold mbitps_of
  rw [divisor_zero]
  by_cases hb : b = 0
  · subst hb
    rw [numerator_zero]
    simp [fdiv]
  · obtain ⟨n, hn, n2, _⟩ := numerator_pos b (Nat.pos_of_ne_zero hb) hb1
    obtain ⟨p0, _⟩ := eps_pow_bounds 2 (by omega)
    have hbq : (0 : ℚ) < (b : ℚ) * 8 := by
      have : (0 : ℚ) < (b : ℚ) := by exact_mod_cast Nat.pos_of_ne_zero hb
      linarith
    have hn0 : n ≠ 0 := by
      have : 0 < (b : ℚ) * 8 * (1 - DBL_EPS) ^ 2 := mul_pos hbq p0
      linarith
    rw [hn]
    simp [fdiv, hn0, hb]

/-- Relative error of a quotient of two rounded values after one more rounding. -/
theorem quotient_near (N E n d r : ℚ) (hN : 0 < N) (hE : 0 < E) (hn : near 2 N n)
    (hd : near 4 E d) (hr1 : n / d * (1 - DBL_EPS) ≤ r) (hr2 : r ≤ n / d * (1 + DBL_EPS)) :
    N / E * (1 - 1 / 2 ^ 49) ≤ r ∧ r ≤ N / E * (1 + 1 / 2 ^ 49) := by
  obtain ⟨n1, n2⟩ := hn
  obtain ⟨d1, d2⟩ := hd
  obtain ⟨l4, _, _, u4l, _⟩ := eps_pow_bounds 4 (by omega)
  obtain ⟨l2, _, _, _, _⟩ := eps_pow_bounds 2 (by omega)
  have hd0 : 0 < d := lt_of_lt_of_le (mul_pos hE l4) d1
  have hn0 : 0 < n := lt_of_lt_of_le (mul_pos hN l2) n1
  have e0 : (0 : ℚ) ≤ 1 - DBL_EPS := by norm_num [DBL_EPS]
  have e1 : (0 : ℚ) ≤ 1 + DBL_EPS := by norm_num [DBL_EPS]
  have klo : (1 : ℚ) - 1 / 2 ^ 49 ≤ (1 - DBL_EPS) ^ 2 / (1 + DBL_EPS) ^ 4 * (1 - DBL_EPS) := by
    norm_num [DBL_EPS]
  have khi : (1 + DBL_EPS) ^ 2 / (1 - DBL_EPS) ^ 4 * (1 + DBL_EPS) ≤ (1 : ℚ) + 1 / 2 ^ 49 := by
    norm_num [DBL_EPS]
  have qlo : N * (1 - DBL_EPS) ^ 2 / (E * (1 + DBL_EPS) ^ 4) ≤ n / d :=
    div_le_div₀ hn0.le n1 hd0 d2
  have qhi : n / d ≤ N * (1 + DBL_EPS) ^ 2 / (E * (1 - DBL_EPS) ^ 4) :=
    div_le_div₀ (le_trans hn0.le n2) n2 (mul_pos hE l4) d1
  rw [mul_div_mul_comm] at qlo qhi
  have hx : 0 ≤ N / E := (div_pos hN hE).le
  have s2 := mul_le_mul_of_nonneg_left klo hx
  have s3 := mul_le_mul_of_nonneg_right qlo e0
  have t2 := mul_le_mul_of_nonneg_left khi hx
  have t3 := mul_le_mul_of_nonneg_right qhi e1
  rw [← mul_assoc] at s2 t2
  constructor
  · exact le_trans s2 (le_trans s3 hr1)
  · exact le_trans hr2 (le_trans t3 t2)

/-- A quotient of two rounded values stays in the normal range of binary64. -/
theorem quotient_range (N E n d : ℚ) (hN1 : 8 ≤ N) (hN2 : N ≤ 2 ^ (35 : ℕ)) (hE1 : 1 ≤ E)
    (hE2 : E ≤ 2 ^ (64 : ℕ)) (hn : near 2 N n) (hd : near 4 E d) :
    0 < d ∧ 1 / (2 : ℚ) ^ (1022 : ℕ) ≤ n / d ∧ n / d < (2 : ℚ) ^ (1023 : ℕ) := by
  obtain ⟨hnlo, hnhi⟩ := near_crude 2 N n (by omega) (by linarith) hn
  obtain ⟨hdlo, hdhi⟩ := near_crude 4 E d (by omega) (by linarith) hd
  have hd0 : 0 < d := by linarith
  have hn0 : 0 < n := by linarith
  refine ⟨hd0, ?_, ?_⟩
  · have h1 : n / 2 ^ (65 : ℕ) ≤ n / d :=
      div_le_div_of_nonneg_left hn0.le hd0 (by linarith)
    have h2 : (4 : ℚ) / 2 ^ (65 : ℕ) ≤ n / 2 ^ (65 : ℕ) :=
      div_le_div_of_nonneg_right (by linarith) (by positivity)
    have h3 : 1 / (2 : ℚ) ^ (1022 : ℕ) ≤ 4 / 2 ^ (65 : ℕ) := by norm_num
    linarith
  · have h1 : n / d ≤ n / (1 / 2) :=
      div_le_div_of_nonneg_left hn0.le (by norm_num) (by linarith)
    have h3 : n / (1 / 2 : ℚ) = n * 2 := by ring
    have h4 : (2 : ℚ) ^ (35 : ℕ) * 2 * 2 < (2 : ℚ) ^ (1023 : ℕ) := by norm_num
    linarith

/-- With a positive elapsed time the divisor is a positive finite value and the
rate is finite, within a relative error of `2 ^ -49` of the exact quotient. -/
theorem mbitps_of_pos (b e : Nat) (hb1 : b < SIZE_MOD) (he0 : 0 < e) (he1 : e < U64_MOD) :
    ∃ d r, fmul (fmul (secs_of e) (FVal.fin 1000)) (FVal.fin 1000) = FVal.fin d ∧ 0 < d ∧
      mbitps_of b e = FVal.fin r ∧
      ((b : ℚ) * 8) / (((e : ℚ) / 1000000) * 1000000) * (1 - 1 / 2 ^ 49) ≤ r ∧
      r ≤ ((b : ℚ) * 8) / (((e : ℚ) / 1000000) * 1000000) * (1 + 1 / 2 ^ 49) := by
  obtain ⟨d, hd, dn⟩ := divisor_pos e he0 he1
  have heq : (1 : ℚ) ≤ (e : ℚ) := by exact_mod_cast he0
  have he2 : (e : ℚ) ≤ (2 : ℚ) ^ (64 : ℕ) := by
    have : e ≤ 2 ^ 64 := by unfold U64_MOD at he1; omega
    exact_mod_cast this
  have hx : ((e : ℚ) / 1000000) * 1000000 = (e : ℚ) := by ring
  obtain ⟨l4, _⟩ := eps_pow_bounds 4 (by omega)
  have hd0 : 0 < d := lt_of_lt_of_le (mul_pos (by linarith) l4) dn.1
  rw [hx]
  suffices h : ∃ r, mbitps_of b e = FVal.fin r ∧
      (b : ℚ) * 8 / (e : ℚ) * (1 - 1 / 2 ^ 49) ≤ r ∧
      r ≤ (b : ℚ) * 8 / (e : ℚ) * (1 + 1 / 2 ^ 49) by
    obtain ⟨r, h1, h2, h3⟩ := h
    exact ⟨d, r, hd, hd0, h1, h2, h3⟩
  unfold mbitps_of
  rw [hd]
  by_cases hb : b = 0
  · subst hb
    rw [numerator_zero]
    refine ⟨0, ?_, by simp, by simp⟩
    simp [fdiv, hd0.ne', rnd_zero]
  · obtain ⟨n, hn, nn⟩ := numerator_pos b (Nat.pos_of_ne_zero hb) hb1
    have hbq : (1 : ℚ) ≤ (b : ℚ) := by exact_mod_cast Nat.pos_of_ne_zero hb
    have hb2 : (b : ℚ) ≤ (2 : ℚ) ^ (32 : ℕ) := by
      have : b ≤ 2 ^ 32 := by unfold SIZE_MOD at hb1; omega
      exact_mod_cast this
    have hN2 : (b : ℚ) * 8 ≤ (2 : ℚ) ^ (35 : ℕ) := by
      have : (2 : ℚ) ^ (32 : ℕ) * 8 = 2 ^ (35 : ℕ) := by norm_num
      linarith
    obtain ⟨_, rlo, rhi⟩ := quotient_range ((b : ℚ) * 8) (e : ℚ) n d (by linarith) hN2 heq he2
      nn dn
    obtain ⟨r, hr, hr1, hr2⟩ := rnd_normal (n / d) rlo rhi
    obtain ⟨g1, g2⟩ := quotient_near ((b : ℚ) * 8) (e : ℚ) n d r (by linarith) (by linarith)
      nn dn hr1 hr2
    refine ⟨r, ?_, g1, g2⟩
    rw [hn]
    simp only [fdiv, hd0.ne', if_false]
    exact hr

theorem round_half_even_eq (m : ℚ) (n : ℤ) (h : |m - n| < 1 / 2) : round_half_even m = n := by
  obtain ⟨h1, h2⟩ := abs_lt.1 h
  unfold round_half_even
  by_cases hc : (n : ℚ) ≤ m
  · have hf : ⌊m⌋ = n := Int.floor_eq_iff.2 ⟨hc, by linarith⟩
    rw [hf, if_pos (by linarith)]
  · have hf : ⌊m⌋ = n - 1 := Int.floor_eq_iff.2 ⟨by push_cast; linarith, by push_cast; linarith⟩
    rw [hf]
    push_cast
    rw [if_neg (by linarith), if_pos (by linarith)]
    ring

/-- Evaluation of `rnd` from a certificate: the binade `k` of `q` and the integer
`n` nearest to `q` measured in units of that binade. -/
theorem rnd_eq (q : ℚ) (k n : ℤ) (hk : -1022 ≤ k) (h1 : (2 : ℚ) ^ k ≤ q)
    (h2 : q < (2 : ℚ) ^ (k + 1)) (h3 : |q / (2 : ℚ) ^ (k - 52) - n| < 1 / 2)
    (h4 : (n : ℚ) * (2 : ℚ) ^ (k - 52) < 2 ^ (1024 : ℕ)) :
    rnd q = FVal.fin ((n : ℚ) * (2 : ℚ) ^ (k - 52)) := by
  have hq : 0 < q := lt_of_lt_of_le (zpow_pos (by norm_num) _) h1
  have hlog : Int.log 2 q = k := by
    apply le_antisymm
    · have := (Int.lt_zpow_iff_log_lt (b := 2) (by norm_num) hq).1 (by simpa using h2)
      omega
    · exact (Int.zpow_le_iff_le_log (by norm_num) hq).1 (by simpa using h1)
  have hu : ulp q = (2 : ℚ) ^ (k - 52) := by
    unfold ulp binade
    rw [hlog, max_eq_left hk]
  unfold rnd
  rw [if_neg hq.ne', hu, round_half_even_eq _ n h3, if_neg (not_le.2 h4)]

theorem fmul_fin (a b : ℚ) : fmul (FVal.fin a) (FVal.fin b) = rnd (a * b) := rfl

theorem fdiv_fin (a b : ℚ) (hb : b ≠ 0) : fdiv (FVal.fin a) (FVal.fin b) = rnd (a / b) := by
  simp [fdiv, hb]

/-- A test vector: for 9 bytes in 9 microseconds the roundings of `9 / 1e6`, of the
two products by `1000.0` and of the final quotient give `8 - 2 ^ -49`, not 8. -/
theorem mbitps_of_nine : mbitps_of 9 9 = FVal.fin (8 - 1 / 2 ^ 49) := by
  have c9 : rnd 9 = FVal.fin 9 := by
    rw [rnd_eq 9 3 5066549580791808 (by norm_num) (by norm_num) (by norm_num)
      (by norm_num [abs_lt]) (by norm_num)]
    norm_num
  have hs : rnd (9 / 1000000) = FVal.fin (5312662293228351 / 590295810358705651712) := by
    rw [rnd_eq (9 / 1000000) (-17) 5312662293228351 (by norm_num) (by norm_num) (by norm_num)
      (by norm_num [abs_lt]) (by norm_num)]
    norm_num
  have t1 : rnd (5312662293228351 / 590295810358705651712 * 1000)
      = FVal.fin (1297036692682703 / 144115188075855872) := by
    rw [rnd_eq _ (-7) 5188146770730812 (by norm_num) (by norm_num) (by norm_num)
      (by norm_num [abs_lt]) (by norm_num)]
    norm_num
  have t2 : rnd (1297036692682703 / 144115188075855872 * 1000)
      = FVal.fin (5066549580791809 / 562949953421312) := by
    rw [rnd_eq _ 3 5066549580791809 (by norm_num) (by norm_num) (by norm_num)
      (by norm_num [abs_lt]) (by norm_num)]
    norm_num
  have n8 : rnd (9 * 8) = FVal.fin 72 := by
    rw [rnd_eq _ 6 5066549580791808 (by norm_num) (by norm_num) (by norm_num)
      (by norm_num [abs_lt]) (by norm_num)]
    norm_num
  have r : rnd (72 / (5066549580791809 / 562949953421312)) = FVal.fin (8 - 1 / 2 ^ 49) := by
    rw [rnd_eq _ 2 9007199254740990 (by norm_num) (by norm_num) (by norm_num)
      (by norm_num [abs_lt]) (by norm_num)]
    norm_num
  unfold mbitps_of secs_of conv
  rw [Nat.cast_ofNat, c9, fdiv_fin _ _ (by norm_num), hs, fmul_fin 9 8, n8, fmul_fin, t1,
    fmul_fin, t2, fdiv_fin _ _ (by norm_num), r]

/-! ## The reported rate -/

theorem ul_loop_no_report (fd : Int) (t c : Nat) (wr : Nat → Nat → Int)
    (fuel : Nat) (r : UlLoop) (h : ul_loop fd t c wr fuel 0 0 = some r)
    (b e : Nat) (rate : FVal) : Ev.report b e rate ∉ r.evs := by
  obtain ⟨_, hshape⟩ := ul_loop_shape fd t c wr fuel 0 0 r (by unfold SIZE_MOD; omega) h
  intro he
  rcases hshape with ⟨_, hall⟩ | ⟨_, ws, n, w, hevs, _, hall⟩
  · obtain ⟨n1, w1, h1, _⟩ := hall _ he
    simp at h1
  · rw [hevs] at he
    simp only [List.mem_append, List.mem_cons, List.mem_singleton, List.not_mem_nil,
      or_false, reduceCtorEq] at he
    obtain ⟨n1, w1, h2, _⟩ := hall _ he
    simp at h2

/-- Every result reported by `run_upload_test` carries the rate computed from the
reported byte count and elapsed time. -/
theorem upload_report_rate (t c : Nat) (ue : UlEnv) (fuel : Nat) (tr : List Ev)
    (hrun : run_upload_test t c ue fuel = some tr) (b e : Nat) (rate : FVal)
    (hmem : Ev.report b e rate ∈ tr) :
    rate = mbitps_of b e ∧ b < SIZE_MOD ∧ e < U64_MOD := by
  simp only [run_upload_test] at hrun
  by_cases hc : (connect_tcp ue.conn).1 < 0
  · rw [if_pos hc] at hrun
    simp only [Option.some.injEq] at hrun
    subst hrun
    simp [connect_tcp_no_report] at hmem
  · rw [if_neg hc] at hrun
    by_cases hm : ue.malloc_ok = false
    · rw [if_pos hm] at hrun
      simp only [Option.some.injEq] at hrun
      subst hrun
      simp [connect_tcp_no_report] at hmem
    · rw [if_neg hm] at hrun
      cases hloop : ul_loop (connect_tcp ue.conn).1 t c ue.wr fuel 0 0 with
      | none => rw [hloop] at hrun; simp at hrun
      | some r =>
        rw [hloop] at hrun
        simp only [Option.some.injEq] at hrun
        subst hrun
        simp only [List.mem_append, List.mem_cons, List.mem_singleton, connect_tcp_no_report,
          ul_loop_no_report _ t c ue.wr fuel r hloop, false_or, reduceCtorEq, or_false,
          List.not_mem_nil, Ev.report.injEq] at hmem
        obtain ⟨h1, h2, h3⟩ := hmem
        obtain ⟨htot, _⟩ :=
          ul_loop_shape _ t c ue.wr fuel 0 0 r (by unfold SIZE_MOD; omega) hloop
        refine ⟨by rw [h1, h2, h3], ?_, ?_⟩
        · rw [h1, htot]; exact Nat.mod_lt _ (by unfold SIZE_MOD; omega)
        · rw [h2]; exact Nat.mod_lt _ (by unfold U64_MOD; omega)

theorem upload_v0_report_rate (t c : Nat) (ue : UlEnv) (tmp_ret : Int) (fuel : Nat)
    (tr : List Ev) (hrun : run_upload_test_v0 t c ue tmp_ret fuel = some tr) (b e : Nat)
    (rate : FVal) (hmem : Ev.report b e rate ∈ tr) :
    rate = mbitps_of b e ∧ b < SIZE_MOD ∧ e < U64_MOD := by
  simp only [run_upload_test_v0] at hrun
  by_cases hc : (connect_tcp ue.conn).1 < 0
  · rw [if_pos hc] at hrun
    simp only [Option.some.injEq] at hrun
    subst hrun
    simp [connect_tcp_no_report] at hmem
  · rw [if_neg hc] at hrun
    by_cases hm : ue.malloc_ok = false
    · rw [if_pos hm] at hrun
      simp only [Option.some.injEq] at hrun
      subst hrun
      simp [connect_tcp_no_report] at hmem
    · rw [if_neg hm] at hrun
      cases hloop : ul_loop (connect_tcp ue.conn).1 t c ue.wr fuel 0 0 with
      | none => rw [hloop] at hrun; simp at hrun
      | some r =>
        rw [hloop] at hrun
        simp only [Option.some.injEq] at hrun
        subst hrun
        simp only [List.mem_append, List.mem_cons, List.mem_singleton, connect_tcp_no_report,
          ul_loop_no_report _ t c ue.wr fuel r hloop, false_or, reduceCtorEq, or_false,
          List.not_mem_nil, Ev.report.injEq] at hmem
        obtain ⟨h1, h2, h3⟩ := hmem
        obtain ⟨htot, _⟩ :=
          ul_loop_shape _ t c ue.wr fuel 0 0 r (by unfold SIZE_MOD; omega) hloop
        refine ⟨by rw [h1, h2, h3], ?_, ?_⟩
        · rw [h1, htot]; exact Nat.mod_lt _ (by unfold SIZE_MOD; omega)
        · rw [h2]; exact Nat.mod_lt _ (by unfold U64_MOD; omega)

theorem dl_tail_report_rate (fd : Int) (end_us : Nat) (r : DlLoop) (b e : Nat) (rate : FVal)
    (hmem : Ev.report b e rate ∈ dl_tail fd end_us r) :
    rate = mbitps_of b e ∧ b = r.st.total ∧ e < U64_MOD := by
  unfold dl_tail at hmem
  split at hmem
  · simp at hmem
  · split at hmem <;> split at hmem <;> simp at hmem
    all_goals
      obtain ⟨h1, h2, h3⟩ := hmem
      refine ⟨by rw [h1, h2, h3], h1, ?_⟩
      rw [h2]; exact Nat.mod_lt _ (by unfold U64_MOD; omega)

theorem dl_step_total_lt (now : Nat) (st st1 : DlState) (bs : List Nat)
    (h : dl_step now st bs = some st1) (hlt : st.total < SIZE_MOD) :
    st1.total < SIZE_MOD := by
  have hM : 0 < SIZE_MOD := by unfold SIZE_MOD; omega
  unfold dl_step at h
  simp only at h
  split at h
  · split at h
    · simp only [Option.some.injEq] at h
      rw [← h]; exact Nat.mod_lt _ hM
    · simp only [Option.some.injEq] at h
      rw [← h]; exact hlt
    · simp at h
  · simp only [Option.some.injEq] at h
    rw [← h]; exact Nat.mod_lt _ hM

/-- The byte count of the read loop is a `size_t` value. -/
theorem dl_loop_total_lt (cap now : Nat) (reads : List ReadRes) :
    ∀ st : DlState, st.total < SIZE_MOD →
      (dl_loop cap now st reads).st.total < SIZE_MOD := by
  induction reads with
  | nil => intro st h; rw [dl_loop_nil]; exact h
  | cons rd rest ih =>
    intro st h
    cases rd with
    | err => rw [dl_loop_err]; exact h
    | data l =>
      cases l with
      | nil => rw [dl_loop_eof]; exact h
      | cons b bs =>
        cases hs : dl_step now st (b :: bs) with
        | none => rw [dl_loop_ub _ _ _ _ _ _ hs]; exact h
        | some st1 =>
          have h1 := dl_step_total_lt now st st1 (b :: bs) hs h
          by_cases hc : 0 < cap ∧ cap ≤ st1.total
          · rw [dl_loop_cap cap now st st1 b bs rest hs hc]; exact h1
          · rw [dl_loop_more cap now st st1 b bs rest hs hc]
            exact ih st1 h1

/-- Every result reported by `run_download_test` carries the rate computed from
the reported byte count and elapsed time. -/
theorem download_report_rate (cap c : Nat) (de : DlEnv) (b e : Nat) (rate : FVal)
    (hmem : Ev.report b e rate ∈ run_download_test cap c de) :
    rate = mbitps_of b e ∧ b < SIZE_MOD ∧ e < U64_MOD := by
  simp only [run_download_test] at hmem
  by_cases hc : (connect_tcp de.conn).1 < 0
  · rw [if_pos hc] at hmem
    simp [connect_tcp_no_report] at hmem
  · rw [if_neg hc] at hmem
    by_cases hq : de.req_ret ≠ (de.req_len : Int)
    · rw [if_pos hq] at hmem
      simp [connect_tcp_no_report] at hmem
    · rw [if_neg hq] at hmem
      by_cases hm : de.malloc_ok = false
      · rw [if_pos hm] at hmem
        simp [connect_tcp_no_report] at hmem
      · rw [if_neg hm] at hmem
        simp only [List.mem_append, List.mem_cons, List.mem_singleton, connect_tcp_no_report,
          false_or, reduceCtorEq, or_false, List.not_mem_nil, read_evs, List.mem_map,
          and_false, exists_false] at hmem
        obtain ⟨h1, h2, h3⟩ := dl_tail_report_rate _ _ _ b e rate hmem
        refine ⟨h1, ?_, h3⟩
        rw [h2]
        exact dl_loop_total_lt cap de.start_us de.reads (dl_init de.buf0)
          (by unfold dl_init SIZE_MOD; simp)

/-- C7 (as amended). For every byte count `b` and elapsed time `e > 0` in
microseconds, a result reported by either meter with these values carries the
binary64 value of `(b * 8.0) / (secs * 1000.0 * 1000.0)` with `secs = e / 1e6`:
the divisor `secs * 1000.0 * 1000.0` is a finite value other than zero, and the
rate is finite and equals `(b * 8) / (seconds * 1_000_000)` with
`seconds = e / 1_000_000` up to a relative rounding error of `2 ^ -49`. -/
theorem reported_rate_formula (b e : Nat) (rate : FVal) (tr : List Ev) (he : 0 < e)
    (hrun : (∃ t c ue fuel, run_upload_test t c ue fuel = some tr) ∨
      (∃ t c ue tmp_ret fuel, run_upload_test_v0 t c ue tmp_ret fuel = some tr) ∨
      (∃ cap c de, run_download_test cap c de = tr))
    (hmem : Ev.report b e rate ∈ tr) :
    rate = mbitps_of b e ∧
    ∃ d r, fmul (fmul (secs_of e) (FVal.fin 1000)) (FVal.fin 1000) = FVal.fin d ∧ 0 < d ∧
      rate = FVal.fin r ∧
      ((b : ℚ) * 8) / (((e : ℚ) / 1000000) * 1000000) * (1 - 1 / 2 ^ 49) ≤ r ∧
      r ≤ ((b : ℚ) * 8) / (((e : ℚ) / 1000000) * 1000000) * (1 + 1 / 2 ^ 49) := by
  have hrate : rate = mbitps_of b e ∧ b < SIZE_MOD ∧ e < U64_MOD := by
    rcases hrun with ⟨t, c, ue, fuel, h⟩ | ⟨t, c, ue, x, fuel, h⟩ | ⟨cap, c, de, h⟩
    · exact upload_report_rate t c ue fuel tr h b e rate hmem
    · exact upload_v0_report_rate t c ue x fuel tr h b e rate hmem
    · subst h
      exact download_report_rate cap c de b e rate hmem
  obtain ⟨h1, h2, h3⟩ := hrate
  refine ⟨h1, ?_⟩
  rw [h1]
  exact mbitps_of_pos b e h2 he h3

/-! ## The header boundary inside the first read -/

theorem isPrefixOf_append_right (n : List Nat) :
    ∀ (l rest : List Nat), n.length ≤ l.length →
      n.isPrefixOf (l ++ rest) = n.isPrefixOf l := by
  induction n with
  | nil => intro l rest _; simp
  | cons a n ih =>
    intro l rest h
    cases l with
    | nil => simp at h
    | cons x l =>
      simp only [List.cons_append, List.isPrefixOf_cons₂]
      rw [ih l rest (by simpa using h)]

theorem first_marker_cons (b : Nat) (rest : List Nat) :
    first_marker (b :: rest) =
      if CRLFCRLF.isPrefixOf (b :: rest) then some 0 else (first_marker rest).map (· + 1) :=
  rfl

theorem strstr_from_cons (b : Nat) (rest : List Nat) (off : Nat) :
    strstr_from (b :: rest) off =
      if CRLFCRLF.isPrefixOf (b :: rest) then Strstr.found off
      else if b = 0 then Strstr.null
      else strstr_from rest (off + 1) :=
  rfl

/-- On a buffer that starts with a header without NUL byte, followed by the first
CRLFCRLF of the response, `strstr` returns the offset of that CRLFCRLF whatever
follows it. -/
theorem strstr_from_header (H rest : List Nat) (hnul : ∀ b ∈ H, b ≠ 0) :
    ∀ off, first_marker (H ++ CRLFCRLF) = some H.length →
      strstr_from (H ++ CRLFCRLF ++ rest) off = Strstr.found (off + H.length) := by
  induction H with
  | nil => intro off _; simp [strstr_from, CRLFCRLF]
  | cons b H ih =>
    intro off hfirst
    have hb : b ≠ 0 := hnul b (List.mem_cons_self _ _)
    rw [List.cons_append, first_marker_cons] at hfirst
    by_cases hp : CRLFCRLF.isPrefixOf (b :: (H ++ CRLFCRLF)) = true
    · rw [if_pos hp] at hfirst
      simp at hfirst
    · rw [if_neg hp] at hfirst
      have hrec : first_marker (H ++ CRLFCRLF) = some H.length := by
        cases hfm : first_marker (H ++ CRLFCRLF) with
        | none => rw [hfm] at hfirst; simp at hfirst
        | some k =>
          rw [hfm] at hfirst
          simp only [Option.map_some', Option.some.injEq, List.length_cons] at hfirst
          congr 1
          omega
      have hlong : CRLFCRLF.isPrefixOf (b :: (H ++ CRLFCRLF ++ rest)) = false := by
        have h := isPrefixOf_append_right CRLFCRLF (b :: (H ++ CRLFCRLF)) rest
          (by simp [CRLFCRLF])
        simp only [List.cons_append] at h
        rw [h]
        exact Bool.eq_false_iff.mpr hp
      rw [List.cons_append, List.cons_append, strstr_from_cons, hlong]
      simp only [Bool.false_eq_true, if_false, hb]
      rw [ih (fun x hx => hnul x (List.mem_cons_of_mem _ hx)) (off + 1) hrec]
      simp only [List.length_cons]
      congr 1
      omega

/-- Once the boundary is found, every read adds its length to `total` until a
read returns 0. -/
theorem dl_loop_body (now : Nat) (later : List (List Nat)) :
    ∀ st : DlState, st.header_done = true → st.total < SIZE_MOD →
      (∀ l ∈ later, l ≠ []) →
      (dl_loop 0 now st (later.map ReadRes.data)).exit = DlExit.eof ∧
      (dl_loop 0 now st (later.map ReadRes.data)).st.header_done = true ∧
      (dl_loop 0 now st (later.map ReadRes.data)).st.total
        = (st.total + (later.map List.length).sum) % SIZE_MOD ∧
      (dl_loop 0 now st (later.map ReadRes.data)).st.start_us = st.start_us := by
  induction later with
  | nil =>
    intro st hd hM _
    rw [List.map_nil, dl_loop_nil]
    exact ⟨rfl, hd, by simp [Nat.mod_eq_of_lt hM], rfl⟩
  | cons l later ih =>
    intro st hd hM hne
    cases l with
    | nil => exact absurd rfl (hne [] (List.mem_cons_self _ _))
    | cons b bs =>
      have hs : dl_step now st (b :: bs)
          = some ⟨buf_after_read st.buf (b :: bs), st.start_us,
              size_add st.total (b :: bs).length, true⟩ := by
        simp [dl_step, hd]
      simp only [List.map_cons]
      rw [dl_loop_more 0 now st _ b bs _ hs (by omega)]
      obtain ⟨h1, h2, h3, h4⟩ := ih ⟨buf_after_read st.buf (b :: bs), st.start_us,
        size_add st.total (b :: bs).length, true⟩ rfl
        (Nat.mod_lt _ (by unfold SIZE_MOD; omega))
        (fun x hx => hne x (List.mem_cons_of_mem _ hx))
      refine ⟨h1, h2, ?_, h4⟩
      show (dl_loop 0 now _ (later.map ReadRes.data)).st.total = _
      rw [h3]
      simp only [size_add, List.sum_cons]
      rw [Nat.mod_add_mod, Nat.add_assoc]

/-- When the first read delivers a NUL-free header `H`, the first CRLFCRLF of the
response and the first body bytes `B1`, and the later reads deliver the rest of the
body until end of file, the loop (without cap) ends with `header_done = true`,
the timer started, and `total` equal to the number of body bytes in `size_t`,
whatever the initial contents of the buffer. -/
theorem download_body_count_first_read (now : Nat) (buf0 H B1 : List Nat)
    (later : List (List Nat)) (hnul : ∀ b ∈ H, b ≠ 0)
    (hfirst : first_marker (H ++ CRLFCRLF) = some H.length)
    (hlater : ∀ l ∈ later, l ≠ [])
    (hlen : (H ++ CRLFCRLF ++ B1).length < SIZE_MOD) :
    (dl_loop 0 now (dl_init buf0)
        (ReadRes.data (H ++ CRLFCRLF ++ B1) :: later.map ReadRes.data)).exit = DlExit.eof ∧
    (dl_loop 0 now (dl_init buf0)
        (ReadRes.data (H ++ CRLFCRLF ++ B1) :: later.map ReadRes.data)).st.header_done = true ∧
    (dl_loop 0 now (dl_init buf0)
        (ReadRes.data (H ++ CRLFCRLF ++ B1) :: later.map ReadRes.data)).st.total
      = (B1.length + (later.map List.length).sum) % SIZE_MOD ∧
    (dl_loop 0 now (dl_init buf0)
        (ReadRes.data (H ++ CRLFCRLF ++ B1) :: later.map ReadRes.data)).st.start_us = now := by
  have hstr : strstr (buf_after_read buf0 (H ++ CRLFCRLF ++ B1)) = Strstr.found H.length := by
    unfold strstr buf_after_read
    have h := strstr_from_header H (B1 ++ buf0.drop (H ++ CRLFCRLF ++ B1).length) hnul 0 hfirst
    simp only [List.append_assoc, Nat.zero_add] at h ⊢
    exact h
  have hr : (H ++ CRLFCRLF ++ B1).length = H.length + 4 + B1.length := by
    simp [CRLFCRLF]
    omega
  have hbody : size_sub (H ++ CRLFCRLF ++ B1).length (H.length + 4) = B1.length := by
    rw [size_sub_of_le (by omega) hlen]; omega
  have hB1 : B1.length < SIZE_MOD := by omega
  have hs : dl_step now (dl_init buf0) (H ++ CRLFCRLF ++ B1)
      = some ⟨buf_after_read buf0 (H ++ CRLFCRLF ++ B1), now, B1.length, true⟩ := by
    simp only [dl_step, dl_init, hstr, hbody, size_add, Nat.zero_add, Nat.mod_eq_of_lt hB1]
    rfl
  obtain ⟨b, bs, hcons⟩ : ∃ b bs, H ++ CRLFCRLF ++ B1 = b :: bs := by
    cases h : H ++ CRLFCRLF ++ B1 with
    | nil => rw [h] at hr; simp at hr; omega
    | cons b bs => exact ⟨b, bs, rfl⟩
  rw [hcons] at hs ⊢
  rw [dl_loop_more 0 now _ _ b bs _ hs (by omega)]
  obtain ⟨h1, h2, h3, h4⟩ := dl_loop_body now later
    ⟨buf_after_read buf0 (b :: bs), now, B1.length, true⟩ rfl hB1 hlater
  exact ⟨h1, h2, h3, h4⟩

/-! ## Download loop on concrete responses -/

/-- C1 (failing input). The response
`"HTTP/1.1 200 OK\r\nServer: nginx\r\nContent-Length: 5\r\n\r\nHELLO"` arrives in three
reads; its first CRLFCRLF (offset 49) lies entirely inside the third read, which
starts at offset 32, and the first two reads contain none.  With no byte cap the
loop ends at end of file with `header_done = true` but `total = 24`, not the
body length 5: the second read finds a CRLFCRLF made of its own last two bytes
and two bytes left in the buffer by the first read. -/
theorem download_body_count_three_reads :
    stream_bytes reads_three =
        bytes "HTTP/1.1 200 OK\r\nServer: nginx\r\nContent-Length: 5" ++ CRLFCRLF
          ++ bytes "HELLO" ∧
      first_marker (stream_bytes reads_three) = some 49 ∧
      first_marker (stream_bytes reads_two_lines) = none ∧
      (stream_bytes reads_two_lines).length = 32 ∧
      (stream_bytes reads_three).length = 58 ∧
      (bytes "HELLO").length = 5 ∧
      (dl_loop 0 1000 (dl_init zero_buf) reads_three).exit = DlExit.eof ∧
      (dl_loop 0 1000 (dl_init zero_buf) reads_three).st.header_done = true ∧
      (dl_loop 0 1000 (dl_init zero_buf) reads_three).st.total = 24 := by
  refine ⟨?_, ?_, ?_, ?_, ?_, ?_, ?_, ?_, ?_⟩ <;> decide

/-- C2 (failing input). The response
`"HTTP/1.1 200 OK\r\nContent-Length: 5\r\n\r\nHELLO"` arrives in two reads that cut the
CRLFCRLF after its second byte.  The loop ends at end of file with
`header_done = false` and `total = 0`, and the run logs "Header not found"
instead of a body of 5 bytes. -/
theorem download_marker_straddle_missed :
    stream_bytes reads_straddle =
        bytes "HTTP/1.1 200 OK\r\nContent-Length: 5" ++ CRLFCRLF ++ bytes "HELLO" ∧
      first_marker (stream_bytes reads_straddle) = some 34 ∧
      (dl_loop 0 1000 (dl_init zero_buf) reads_straddle).exit = DlExit.eof ∧
      (dl_loop 0 1000 (dl_init zero_buf) reads_straddle).st.header_done = false ∧
      (dl_loop 0 1000 (dl_init zero_buf) reads_straddle).st.total = 0 ∧
      run_download_test 0 IO_BUF_SIZE (dl_env reads_straddle) =
        [Ev.socket 3, Ev.connect 3, Ev.write 3 80 80, Ev.read 3 IO_BUF_SIZE 36, Ev.read 3 IO_BUF_SIZE 7,
         Ev.read 3 IO_BUF_SIZE 0, Ev.warnNoHeader, Ev.free, Ev.close 3] := by
  refine ⟨?_, ?_, ?_, ?_, ?_, ?_⟩ <;> decide

/-- C3 (failing input). The reads `"HTTP/1.1 200 OK\r\n"` and `"Server: nginx\r\n"`
followed by end of file never deliver a CRLFCRLF, yet the loop ends with
`header_done = true` and `total = 4294967294`, and the run reports a body of
4294967294 bytes instead of logging "Header not found". -/
theorem download_no_marker_reports_body :
    first_marker (stream_bytes reads_two_lines) = none ∧
      (dl_loop 0 1000 (dl_init zero_buf) reads_two_lines).exit = DlExit.eof ∧
      (dl_loop 0 1000 (dl_init zero_buf) reads_two_lines).st.header_done = true ∧
      (dl_loop 0 1000 (dl_init zero_buf) reads_two_lines).st.total = 4294967294 ∧
      run_download_test 0 IO_BUF_SIZE (dl_env reads_two_lines) =
        [Ev.socket 3, Ev.connect 3, Ev.write 3 80 80, Ev.read 3 IO_BUF_SIZE 17, Ev.read 3 IO_BUF_SIZE 15,
         Ev.read 3 IO_BUF_SIZE 0,
         Ev.report 4294967294 4000 (mbitps_of 4294967294 4000), Ev.free, Ev.close 3] := by
  refine ⟨by decide, by decide, by decide, by decide, ?_⟩
  rfl

/-- C10 (failing input). After the read of `"HTTP/1.1 200 OK\r\n"` (17 bytes) the
read of `"Server: nginx\r\n"` returns `r = 15`; the search over the buffer succeeds
at offset 13, so `header_len = 17 > r`, `body_len = r - header_len` wraps to
4294967294 and `total` grows from 0 to 4294967294, more than `r`. -/
theorem download_body_len_wraps :
    dl_step 1000 (dl_init zero_buf) (bytes "HTTP/1.1 200 OK\r\n") = some st_after_status ∧
      (bytes "Server: nginx\r\n").length = 15 ∧
      strstr (buf_after_read st_after_status.buf (bytes "Server: nginx\r\n"))
        = Strstr.found 13 ∧
      15 < 13 + 4 ∧
      size_sub 15 (13 + 4) = 4294967294 ∧
      (dl_step 1000 st_after_status (bytes "Server: nginx\r\n")).map DlState.total
        = some 4294967294 ∧
      (dl_step 1000 st_after_status (bytes "Server: nginx\r\n")).map DlState.header_done
        = some true := by
  refine ⟨by rfl, by decide, by decide, by decide, by decide, by decide, by decide⟩

/-! ## Concrete runs -/

/-- C6 (counterexample). An upload of 1024 bytes whose second write fails after
512 bytes were accepted still reports `512 bytes` with elapsed time and rate, and
a download whose second read fails after the header boundary and 2 body bytes
still reports `2 bytes` with elapsed time and rate. -/
theorem io_error_result_reported :
    run_upload_test 1024 IO_BUF_SIZE (ul_env wr_fail_second 1000 5000) 3 =
      some [Ev.socket 3, Ev.connect 3, Ev.write 3 1024 512, Ev.write 3 512 (-1),
        Ev.logE Msg.ulWriteError, Ev.shutdown 3,
        Ev.report 512 4000 (mbitps_of 512 4000), Ev.free, Ev.close 3] ∧
    run_download_test 0 IO_BUF_SIZE (dl_env reads_then_error) =
      [Ev.socket 3, Ev.connect 3, Ev.write 3 80 80, Ev.read 3 IO_BUF_SIZE 21,
        Ev.read 3 IO_BUF_SIZE (-1), Ev.logE Msg.dlReadError,
        Ev.report 2 4000 (mbitps_of 2 4000), Ev.free, Ev.close 3] :=
  ⟨by rfl, by rfl⟩

/-- Witness of C6 as amended: the two runs of the counterexample. -/
theorem io_error_ends_loop_and_reports_witness :
    (∃ pre, [Ev.socket 3, Ev.connect 3, Ev.write 3 1024 512, Ev.write 3 512 (-1),
        Ev.logE Msg.ulWriteError, Ev.shutdown 3,
        Ev.report 512 4000 (mbitps_of 512 4000), Ev.free, Ev.close 3] =
      pre ++ [Ev.write 3 512 (-1), Ev.logE Msg.ulWriteError, Ev.shutdown 3,
        Ev.report (written pre % SIZE_MOD) (u64_sub 5000 1000)
          (mbitps_of (written pre % SIZE_MOD) (u64_sub 5000 1000)),
        Ev.free, Ev.close 3]) ∧
    (∃ pre, run_download_test 0 IO_BUF_SIZE (dl_env reads_then_error) =
      pre ++ [Ev.read 3 IO_BUF_SIZE (-1), Ev.logE Msg.dlReadError,
        Ev.report (dl_loop 0 1000 (dl_init zero_buf) reads_then_error).st.total
          (u64_sub 5000 (dl_loop 0 1000 (dl_init zero_buf) reads_then_error).st.start_us)
          (mbitps_of (dl_loop 0 1000 (dl_init zero_buf) reads_then_error).st.total
            (u64_sub 5000 (dl_loop 0 1000 (dl_init zero_buf) reads_then_error).st.start_us)),
        Ev.free, Ev.close 3]) :=
  ⟨io_error_ends_loop_and_reports.1 1024 IO_BUF_SIZE (ul_env wr_fail_second 1000 5000) 3 _
      3 512 (-1) (by rfl) (by simp) (by decide),
   io_error_ends_loop_and_reports.2 0 IO_BUF_SIZE (dl_env reads_then_error) 3 IO_BUF_SIZE
      (-1) (by decide) (by decide) (by decide)⟩

/-- C7 (counterexample). For `e = 0` the divisor `secs * 1000.0 * 1000.0` is zero
and the division is performed all the same: the rate of 0 bytes in 0 microseconds
is NaN and the rate of 5 bytes in 0 microseconds is +Inf, neither is 0.  An upload
of 0 bytes whose two clock readings coincide reports NaN, and a download whose
clock readings at the boundary and after the loop coincide reports +Inf. -/
theorem rate_zero_elapsed_not_zero :
    fmul (fmul (secs_of 0) (FVal.fin 1000)) (FVal.fin 1000) = FVal.fin 0 ∧
    mbitps_of 0 0 = FVal.nan ∧ mbitps_of 0 0 ≠ FVal.fin 0 ∧
    mbitps_of 5 0 = FVal.inf ∧ mbitps_of 5 0 ≠ FVal.fin 0 ∧
    run_upload_test 0 IO_BUF_SIZE (ul_env wr_full 7000 7000) 1 =
      some [Ev.socket 3, Ev.connect 3, Ev.shutdown 3, Ev.report 0 0 FVal.nan, Ev.free,
        Ev.close 3] ∧
    run_download_test 2 IO_BUF_SIZE ⟨conn_ok, 80, 80, true, zero_buf, reads_body, 7000, 7000⟩ =
      [Ev.socket 3, Ev.connect 3, Ev.write 3 80 80, Ev.read 3 IO_BUF_SIZE 21,
        Ev.report 2 0 FVal.inf, Ev.free, Ev.close 3] := by
  have h0 : mbitps_of 0 0 = FVal.nan := by
    rw [mbitps_of_zero_elapsed 0 (by decide)]; rfl
  have h5 : mbitps_of 5 0 = FVal.inf := by
    rw [mbitps_of_zero_elapsed 5 (by decide)]; rfl
  have h2 : mbitps_of 2 0 = FVal.inf := by
    rw [mbitps_of_zero_elapsed 2 (by decide)]; rfl
  refine ⟨divisor_zero, h0, by rw [h0]; simp, h5, by rw [h5]; simp, ?_, ?_⟩
  · rw [← h0]; rfl
  · rw [← h2]; rfl

/-- Witness of C7 as amended: the download run that reports 2 bytes in 4000
microseconds. -/
theorem reported_rate_formula_witness :
    mbitps_of 2 4000 = mbitps_of 2 4000 ∧
    ∃ d r, fmul (fmul (secs_of 4000) (FVal.fin 1000)) (FVal.fin 1000) = FVal.fin d ∧ 0 < d ∧
      mbitps_of 2 4000 = FVal.fin r ∧
      (((2 : Nat) : ℚ) * 8) / ((((4000 : Nat) : ℚ) / 1000000) * 1000000) * (1 - 1 / 2 ^ 49) ≤ r ∧
      r ≤ (((2 : Nat) : ℚ) * 8) / ((((4000 : Nat) : ℚ) / 1000000) * 1000000) * (1 + 1 / 2 ^ 49) :=
  reported_rate_formula 2 4000 (mbitps_of 2 4000)
    [Ev.socket 3, Ev.connect 3, Ev.write 3 80 80, Ev.read 3 IO_BUF_SIZE 21,
      Ev.read 3 IO_BUF_SIZE (-1), Ev.logE Msg.dlReadError,
      Ev.report 2 4000 (mbitps_of 2 4000), Ev.free, Ev.close 3]
    (by decide)
    (Or.inr (Or.inr ⟨0, IO_BUF_SIZE, dl_env reads_then_error, by rfl⟩))
    (by simp)

/-- Witness of C8: with a cap of 4 bytes and accumulated counts 2, 5, 10 the loop is
left after the second read. -/
theorem download_byte_cap_witness :
    (dl_loop 4 1000 (dl_init zero_buf) reads_body).exit = DlExit.capReached ∧
    (dl_loop 4 1000 (dl_init zero_buf) reads_body).rets =
      (dl_loop 0 1000 (dl_init zero_buf) reads_body).rets.take (1 + 1) ∧
    (dl_loop 4 1000 (dl_init zero_buf) reads_body).totals =
      (dl_loop 0 1000 (dl_init zero_buf) reads_body).totals.take (1 + 1) ∧
    (dl_loop 4 1000 (dl_init zero_buf) reads_body).st.total = 5 :=
  (download_byte_cap 4 1000 (dl_init zero_buf) reads_body).2.2 (by decide) 1 5 (by decide)
    (by decide)
    (by
      intro j y hj hy
      have hj0 : j = 0 := by omega
      subst hj0
      have h2 : (dl_loop 0 1000 (dl_init zero_buf) reads_body).totals[0]? = some 2 := by decide
      rw [h2] at hy
      cases hy
      decide)

/-- Witness of C9: a refused connection, an upload whose second write fails, an
upload over partial writes, and a download of three reads. -/
theorem socket_closed_once_last_witness :
    ((connect_tcp conn_refused).1 = -1 ∧
      closed_once_last 3 (connect_tcp conn_refused).2) ∧
    closed_once_last 3
      [Ev.socket 3, Ev.connect 3, Ev.write 3 1024 512, Ev.write 3 512 (-1),
        Ev.logE Msg.ulWriteError, Ev.shutdown 3,
        Ev.report 512 4000 (mbitps_of 512 4000), Ev.free, Ev.close 3] ∧
    (run_upload_test 10 4 (ul_env wr_partial 1000 5000) 11).isSome = true ∧
    closed_once_last 3 (run_download_test 0 IO_BUF_SIZE (dl_env reads_body)) :=
  ⟨⟨((socket_closed_once_last.1 conn_refused).1 (by decide)).1,
      ((socket_closed_once_last.1 conn_refused).1 (by decide)).2 3 (by decide) (by decide)⟩,
    socket_closed_once_last.2.1 1024 IO_BUF_SIZE (ul_env wr_fail_second 1000 5000) 3 _
      (by rfl) 3 (by decide) (by simp),
    socket_closed_once_last.2.2.2.1 10 4 (ul_env wr_partial 1000 5000) 11
      (by decide) (by decide)
      (by intro i n _; unfold ul_env wr_partial; simp only; split <;> omega)
      (by decide),
    socket_closed_once_last.2.2.2.2 0 IO_BUF_SIZE (dl_env reads_body) (by decide) 3
      (by decide) (by decide)⟩

end Speedtest
